import Mathlib

/-!
Verification of the transcript-extraction pipeline in
`src/skills/summarize/scripts/extract_youtube_transcript.py`.

Python strings are embedded as `List Char`; stateful scanning loops become
structural recursion with explicit state; Python exceptions are embedded in
an `Except` monad; network fetches become explicit oracle parameters.
-/

namespace Yt

/-- The opening-brace character, written by code point to keep source plain. -/
def lbrace : Char := Char.ofNat 123

/-- The closing-brace character. -/
def rbrace : Char := Char.ofNat 125

/-- The double-quote character. -/
def dquote : Char := Char.ofNat 34

/-- The single-quote character. -/
def squote : Char := Char.ofNat 39

/-- The backslash character. -/
def bslash : Char := Char.ofNat 92

/-- Mirror of Python `str.find(needle, start)` over character lists: the least
absolute index `i ≥ start` at which `needle` occurs in `hay`, as an `Option`
instead of `-1`. -/
def findStrAux (needle : List Char) : List Char → Nat → Option Nat
  | [], i => if needle = [] then some i else none
  | c :: rest, i =>
    if needle.isPrefixOf (c :: rest) then some i else findStrAux needle rest (i + 1)

def pyFindStr (hay needle : List Char) (start : Nat) : Option Nat :=
  (findStrAux needle (hay.drop start) 0).map (· + start)

/-- The character-by-character balanced scan of `extract_balanced_json`
(lines 97-122 of the source): state is brace depth, an in-string flag and an
escaping flag.  Returns the number of characters consumed up to and including
the brace that returns the depth to zero. -/
def scanBal : List Char → Int → Bool → Bool → Option Nat
  | [], _, _, _ => none
  | c :: cs, depth, inStr, esc =>
    if inStr then
      if esc then (scanBal cs depth true false).map (· + 1)
      else if c = bslash then (scanBal cs depth true true).map (· + 1)
      else if c = dquote ∨ c = squote then (scanBal cs depth false false).map (· + 1)
      else (scanBal cs depth true false).map (· + 1)
    else if c = dquote ∨ c = squote then (scanBal cs depth true false).map (· + 1)
    else if c = lbrace then (scanBal cs (depth + 1) false false).map (· + 1)
    else if c = rbrace then
      if depth - 1 = 0 then some 1
      else (scanBal cs (depth - 1) false false).map (· + 1)
    else (scanBal cs depth false false).map (· + 1)

/-- Embedding of `extract_balanced_json(source, start_at)` (source lines
91-122): find the first opening brace at or after `start_at`, then run the
balanced scan and return the spanned substring. -/
def extract_balanced_json (source : List Char) (start_at : Nat) : Option (List Char) :=
  match pyFindStr source [lbrace] start_at with
  | none => none
  | some start =>
    match scanBal (source.drop start) 0 false false with
    | none => none
    | some len => some ((source.drop start).take len)

/-- Grammar of well-formed balanced JSON-object texts, written from the
specification sentence: a brace-balanced object whose quoted strings (either
quote character) are opaque, with backslash escaping inside strings.  Layer 0
is a string body, layer 1 is object-interior text, layer 2 is a full object
from its opening brace to the matching closing brace. -/
inductive Gram : Nat → List Char → Prop where
  | sNil : Gram 0 []
  | sPlain (c : Char) (cs : List Char) :
      c ≠ dquote → c ≠ squote → c ≠ bslash → Gram 0 cs → Gram 0 (c :: cs)
  | sEsc (c : Char) (cs : List Char) : Gram 0 cs → Gram 0 (bslash :: c :: cs)
  | iNil : Gram 1 []
  | iPlain (c : Char) (cs : List Char) :
      c ≠ dquote → c ≠ squote → c ≠ lbrace → c ≠ rbrace → Gram 1 cs → Gram 1 (c :: cs)
  | iStr (q : Char) (b cs : List Char) :
      q = dquote ∨ q = squote → Gram 0 b → Gram 1 cs → Gram 1 (q :: (b ++ q :: cs))
  | iObj (b cs : List Char) : Gram 2 b → Gram 1 cs → Gram 1 (b ++ cs)
  | oMk (inner : List Char) : Gram 1 inner → Gram 2 (lbrace :: (inner ++ [rbrace]))

/-- A well-formed balanced object text, from opening to matching closing brace. -/
def ObjText (b : List Char) : Prop := Gram 2 b

theorem lbrace_not_quote : ¬(lbrace = dquote ∨ lbrace = squote) := by decide

theorem rbrace_not_quote : ¬(rbrace = dquote ∨ rbrace = squote) := by decide

theorem rbrace_ne_lbrace : rbrace ≠ lbrace := by decide

theorem scanBal_inStr_esc (c : Char) (cs : List Char) (d : Int) :
    scanBal (c :: cs) d true true = (scanBal cs d true false).map (· + 1) := by
  simp [scanBal]

theorem scanBal_inStr_bslash (cs : List Char) (d : Int) :
    scanBal (bslash :: cs) d true false = (scanBal cs d true true).map (· + 1) := by
  simp [scanBal]

theorem scanBal_inStr_quote (c : Char) (cs : List Char) (d : Int)
    (h : c = dquote ∨ c = squote) :
    scanBal (c :: cs) d true false = (scanBal cs d false false).map (· + 1) := by
  have hb : c ≠ bslash := by rcases h with h | h <;> subst h <;> decide
  simp only [scanBal, if_neg hb, if_pos h]
  simp

theorem scanBal_inStr_plain (c : Char) (cs : List Char) (d : Int)
    (hb : c ≠ bslash) (hq : ¬(c = dquote ∨ c = squote)) :
    scanBal (c :: cs) d true false = (scanBal cs d true false).map (· + 1) := by
  simp only [scanBal, if_neg hb, if_neg hq]
  simp

theorem scanBal_quote (c : Char) (cs : List Char) (d : Int)
    (h : c = dquote ∨ c = squote) :
    scanBal (c :: cs) d false false = (scanBal cs d true false).map (· + 1) := by
  simp only [scanBal, if_pos h]
  simp

theorem scanBal_lbrace (cs : List Char) (d : Int) :
    scanBal (lbrace :: cs) d false false = (scanBal cs (d + 1) false false).map (· + 1) := by
  simp only [scanBal, if_neg lbrace_not_quote, if_pos rfl]
  simp

theorem scanBal_rbrace_ret (cs : List Char) (d : Int) (h : d - 1 = 0) :
    scanBal (rbrace :: cs) d false false = some 1 := by
  simp only [scanBal, if_neg rbrace_not_quote, if_neg rbrace_ne_lbrace, if_pos rfl, if_pos h]
  simp

theorem scanBal_rbrace_cont (cs : List Char) (d : Int) (h : ¬(d - 1 = 0)) :
    scanBal (rbrace :: cs) d false false = (scanBal cs (d - 1) false false).map (· + 1) := by
  simp only [scanBal, if_neg rbrace_not_quote, if_neg rbrace_ne_lbrace, if_pos rfl, if_neg h]
  simp

theorem scanBal_plain (c : Char) (cs : List Char) (d : Int)
    (hq : ¬(c = dquote ∨ c = squote)) (hl : c ≠ lbrace) (hr : c ≠ rbrace) :
    scanBal (c :: cs) d false false = (scanBal cs d false false).map (· + 1) := by
  simp only [scanBal, if_neg hq, if_neg hl, if_neg hr]
  simp

theorem scanBal_gram {k : Nat} {t : List Char} (h : Gram k t) :
    (k = 0 → ∀ d rest, scanBal (t ++ rest) d true false =
      (scanBal rest d true false).map (· + t.length)) ∧
    (k = 1 → ∀ d rest, (1 : Int) ≤ d → scanBal (t ++ rest) d false false =
      (scanBal rest d false false).map (· + t.length)) ∧
    (k = 2 → ∀ d rest, (1 : Int) ≤ d → scanBal (t ++ rest) d false false =
      (scanBal rest d false false).map (· + t.length)) := by
  induction h with
  | sNil =>
    refine ⟨fun _ d rest => ?_, fun h => absurd h (by decide), fun h => absurd h (by decide)⟩
    simp
  | sPlain c cs h1 h2 h3 _ ih =>
    refine ⟨fun _ d rest => ?_, fun h => absurd h (by decide), fun h => absurd h (by decide)⟩
    have hq : ¬(c = dquote ∨ c = squote) := by
      intro hc; rcases hc with hc | hc
      · exact h1 hc
      · exact h2 hc
    rw [List.cons_append, scanBal_inStr_plain c _ d h3 hq, ih.1 rfl d rest]
    cases scanBal rest d true false <;> simp <;> omega
  | sEsc c cs _ ih =>
    refine ⟨fun _ d rest => ?_, fun h => absurd h (by decide), fun h => absurd h (by decide)⟩
    rw [List.cons_append, List.cons_append, scanBal_inStr_bslash, scanBal_inStr_esc,
      ih.1 rfl d rest]
    cases scanBal rest d true false <;> simp <;> omega
  | iNil =>
    refine ⟨fun h => absurd h (by decide), fun _ d rest _ => ?_, fun h => absurd h (by decide)⟩
    simp
  | iPlain c cs h1 h2 h3 h4 _ ih =>
    refine ⟨fun h => absurd h (by decide), fun _ d rest hd => ?_, fun h => absurd h (by decide)⟩
    have hq : ¬(c = dquote ∨ c = squote) := by
      intro hc; rcases hc with hc | hc
      · exact h1 hc
      · exact h2 hc
    rw [List.cons_append, scanBal_plain c _ d hq h3 h4, ih.2.1 rfl d rest hd]
    cases scanBal rest d false false <;> simp <;> omega
  | iStr q b cs hq _ _ ihb ihcs =>
    refine ⟨fun h => absurd h (by decide), fun _ d rest hd => ?_, fun h => absurd h (by decide)⟩
    rw [List.cons_append, List.append_assoc, List.cons_append,
      scanBal_quote q _ d hq, ihb.1 rfl d (q :: (cs ++ rest)),
      scanBal_inStr_quote q _ d hq, ihcs.2.1 rfl d rest hd]
    cases scanBal rest d false false <;> simp <;> omega
  | iObj b cs _ _ ihb ihcs =>
    refine ⟨fun h => absurd h (by decide), fun _ d rest hd => ?_, fun h => absurd h (by decide)⟩
    rw [List.append_assoc, ihb.2.2 rfl d (cs ++ rest) hd, ihcs.2.1 rfl d rest hd]
    cases scanBal rest d false false <;> simp <;> omega
  | oMk inner _ ih =>
    refine ⟨fun h => absurd h (by decide), fun h => absurd h (by decide), fun _ d rest hd => ?_⟩
    rw [List.cons_append, List.append_assoc, List.singleton_append, scanBal_lbrace,
      ih.2.1 rfl (d + 1) (rbrace :: rest) (by omega),
      scanBal_rbrace_cont _ (d + 1) (by omega)]
    have hdd : d + 1 - 1 = d := by omega
    rw [hdd]
    cases scanBal rest d false false <;> simp <;> omega

/-- Scanning a well-formed object text from depth zero consumes exactly the
object text. -/
theorem scanBal_objText {b : List Char} (h : ObjText b) (rest : List Char) :
    scanBal (b ++ rest) 0 false false = some b.length := by
  cases h with
  | oMk inner hinner =>
    rw [List.cons_append, List.append_assoc, List.singleton_append, scanBal_lbrace,
      (scanBal_gram hinner).2.1 rfl (0 + 1) (rbrace :: rest) (by omega),
      scanBal_rbrace_ret _ (0 + 1) (by omega)]
    simp
    omega

theorem findStrAux_single (c : Char) (pre tail : List Char) (i : Nat)
    (hpre : ∀ x ∈ pre, x ≠ c) :
    findStrAux [c] (pre ++ c :: tail) i = some (i + pre.length) := by
  induction pre generalizing i with
  | nil =>
    simp only [List.nil_append, findStrAux, List.append_eq]
    rw [if_pos]
    · simp
    · simp [List.isPrefixOf]
  | cons x xs ih =>
    have hx : x ≠ c := hpre x (by simp)
    simp only [List.cons_append, findStrAux, List.append_eq]
    rw [if_neg, ih (i + 1) (fun y hy => hpre y (by simp [hy]))]
    · simp; omega
    · simp [List.isPrefixOf]
      exact fun h => absurd h.symm hx

theorem findStrAux_single_none (c : Char) (l : List Char) (i : Nat)
    (h : ∀ x ∈ l, x ≠ c) : findStrAux [c] l i = none := by
  induction l generalizing i with
  | nil => simp [findStrAux]
  | cons x xs ih =>
    simp only [findStrAux, List.append_eq]
    rw [if_neg, ih (i + 1) (fun y hy => h y (by simp [hy]))]
    simp [List.isPrefixOf]
    exact fun hc => absurd hc.symm (h x (by simp))

theorem pyFindStr_single_ge {hay : List Char} {c : Char} {s j : Nat}
    (h : pyFindStr hay [c] s = some j) : s ≤ j := by
  unfold pyFindStr at h
  cases hf : findStrAux [c] (hay.drop s) 0 with
  | none => rw [hf] at h; simp at h
  | some i => rw [hf] at h; simp at h; omega

theorem findStrAux_single_none_mem {c : Char} {l : List Char} {i : Nat}
    (h : findStrAux [c] l i = none) : ∀ x ∈ l, x ≠ c := by
  induction l generalizing i with
  | nil => simp
  | cons x xs ih =>
    simp only [findStrAux] at h
    by_cases hp : [c].isPrefixOf (x :: xs)
    · rw [if_pos hp] at h; simp at h
    · rw [if_neg hp] at h
      intro y hy
      rcases List.mem_cons.mp hy with hy | hy
      · subst hy
        intro hc
        exact hp (by simp [List.isPrefixOf, hc])
      · exact ih h y hy

theorem pyFindStr_single_none_mono {hay : List Char} {c : Char} {s j : Nat}
    (h : pyFindStr hay [c] s = none) (hj : s ≤ j) : pyFindStr hay [c] j = none := by
  unfold pyFindStr at h ⊢
  cases hf : findStrAux [c] (hay.drop s) 0 with
  | some i => rw [hf] at h; simp at h
  | none =>
    have hmem := findStrAux_single_none_mem hf
    have : ∀ x ∈ hay.drop j, x ≠ c := by
      intro x hx
      apply hmem
      have : hay.drop j = (hay.drop s).drop (j - s) := by
        rw [List.drop_drop]
        congr 1
        omega
      rw [this] at hx
      exact List.mem_of_mem_drop hx
    rw [findStrAux_single_none c _ 0 this]
    simp

/-- C1: for any page text made of a prefix holding no opening brace at or
after the scan start, followed by a well-formed balanced JSON object text
(quoted strings opaque, with backslash escapes), followed by anything, the
extractor returns exactly the object text, from the first opening brace to
its matching closing brace. -/
theorem extract_balanced_json_balanced (pre b rest : List Char) (k : Nat)
    (hk : k ≤ pre.length) (hpre : ∀ x ∈ pre.drop k, x ≠ lbrace) (hb : ObjText b) :
    extract_balanced_json (pre ++ b ++ rest) k = some b := by
  obtain ⟨inner, hinner, hbeq⟩ : ∃ inner, Gram 1 inner ∧ b = lbrace :: (inner ++ [rbrace]) := by
    cases hb with
    | oMk inner hinner => exact ⟨inner, hinner, rfl⟩
  have hdropk : (pre ++ b ++ rest).drop k = pre.drop k ++ (b ++ rest) := by
    rw [List.append_assoc, List.drop_append_of_le_length hk]
  have hfind : pyFindStr (pre ++ b ++ rest) [lbrace] k = some pre.length := by
    unfold pyFindStr
    rw [hdropk, hbeq, List.cons_append]
    rw [findStrAux_single lbrace (pre.drop k) _ 0 hpre]
    simp
    omega
  have hdropfull : (pre ++ b ++ rest).drop pre.length = b ++ rest := by
    rw [List.append_assoc, List.drop_left]
  unfold extract_balanced_json
  rw [hfind]
  simp only [hdropfull, scanBal_objText hb rest]
  rw [List.take_left]

/-- Witness object text: an object whose single-quoted .. double-quoted string
holds a closing brace. -/
theorem exObjText : ObjText [lbrace, dquote, rbrace, dquote, rbrace] := by
  have h0 : Gram 0 [rbrace] :=
    Gram.sPlain rbrace [] (by decide) (by decide) (by decide) Gram.sNil
  have h1 : Gram 1 [dquote, rbrace, dquote] :=
    Gram.iStr dquote [rbrace] [] (Or.inl rfl) h0 Gram.iNil
  exact Gram.oMk [dquote, rbrace, dquote] h1

/-- Witness for C1: a concrete page text whose embedded object contains a
brace inside a quoted string; the extractor returns exactly the object. -/
theorem extract_balanced_json_balanced_witness :
    extract_balanced_json (("var ytInitialPlayerResponse = ").toList ++
      [lbrace, dquote, rbrace, dquote, rbrace] ++ ("; rest").toList) 0 =
      some [lbrace, dquote, rbrace, dquote, rbrace] :=
  extract_balanced_json_balanced _ _ _ 0 (Nat.zero_le _) (by decide) exObjText

/-! JSON values.  The Python side works on the result of `json.loads`: JSON
null maps to Python `None` (constructor `null` plays both roles), numbers are
modelled as exact rationals (IEEE-754 rounding of Python floats is not
modelled; the claims below depend only on signs and integer values), strings
are character lists, objects are key-ordered association lists with unique
keys (dict insertion order). -/
inductive JVal where
  | null
  | boolean (b : Bool)
  | num (q : Rat)
  | str (s : List Char)
  | arr (xs : List JVal)
  | obj (kvs : List (List Char × JVal))

/-- Python exceptions that the script can raise or catch. -/
inductive PyExc where
  | attributeError
  | typeError
  | valueError
  | keyError
  | indexError
  | overflowError
deriving DecidableEq, Repr

/-- Python computations: a value or an uncaught exception. -/
abbrev PyM (α : Type) := Except PyExc α

/-- JSON whitespace accepted between tokens by `json.loads`. -/
def jWs (c : Char) : Bool :=
  c = ' ' || c = Char.ofNat 9 || c = Char.ofNat 10 || c = Char.ofNat 13

def jSkip (s : List Char) : List Char := s.dropWhile jWs

def hexVal (c : Char) : Option Nat :=
  if c.isDigit then some (c.toNat - 48)
  else if 97 ≤ c.toNat ∧ c.toNat ≤ 102 then some (c.toNat - 87)
  else if 65 ≤ c.toNat ∧ c.toNat ≤ 70 then some (c.toNat - 55)
  else none

def digitsToNat (ds : List Char) : Nat :=
  ds.foldl (fun a c => a * 10 + (c.toNat - 48)) 0

/-- Strict JSON string body parser (after the opening double quote): returns
the decoded content and the remainder after the closing quote.  Only the
escapes JSON allows are accepted; unescaped control characters are rejected;
surrogate-pair recombination of adjacent unicode escapes is not modelled. -/
def parseJStr : Nat → List Char → Option (List Char × List Char)
  | 0, _ => none
  | _, [] => none
  | fu + 1, c :: rest =>
    if c = dquote then some ([], rest)
    else if c = bslash then
      match rest with
      | [] => none
      | e :: rest2 =>
        if e = dquote then (parseJStr fu rest2).map (fun p => (dquote :: p.1, p.2))
        else if e = bslash then (parseJStr fu rest2).map (fun p => (bslash :: p.1, p.2))
        else if e = Char.ofNat 47 then
          (parseJStr fu rest2).map (fun p => (Char.ofNat 47 :: p.1, p.2))
        else if e = 'b' then (parseJStr fu rest2).map (fun p => (Char.ofNat 8 :: p.1, p.2))
        else if e = 'f' then (parseJStr fu rest2).map (fun p => (Char.ofNat 12 :: p.1, p.2))
        else if e = 'n' then (parseJStr fu rest2).map (fun p => (Char.ofNat 10 :: p.1, p.2))
        else if e = 'r' then (parseJStr fu rest2).map (fun p => (Char.ofNat 13 :: p.1, p.2))
        else if e = 't' then (parseJStr fu rest2).map (fun p => (Char.ofNat 9 :: p.1, p.2))
        else if e = 'u' then
          match rest2 with
          | h1 :: h2 :: h3 :: h4 :: rest3 =>
            match hexVal h1, hexVal h2, hexVal h3, hexVal h4 with
            | some a, some b, some c2, some d =>
              (parseJStr fu rest3).map
                (fun p => (Char.ofNat (a * 4096 + b * 256 + c2 * 16 + d) :: p.1, p.2))
            | _, _, _, _ => none
          | _ => none
        else none
    else if c.toNat < 32 then none
    else (parseJStr fu rest).map (fun p => (c :: p.1, p.2))

/-- The exact rational value of a decimal literal with sign, integer digits,
fraction digits and a decimal exponent, built with `Rat.divInt` over integer
arithmetic. -/
def decToRat (neg : Bool) (ip fp : List Char) (e : Int) : Rat :=
  let mant : Int := (digitsToNat (ip ++ fp) : Int)
  let mant : Int := if neg then -mant else mant
  if 0 ≤ e then
    Rat.divInt (mant * ((10 ^ e.toNat : Nat) : Int)) ((10 ^ fp.length : Nat) : Int)
  else
    Rat.divInt mant (((10 ^ fp.length : Nat) : Int) * ((10 ^ (-e).toNat : Nat) : Int))

/-- JSON number parser: optional minus, an integer part without leading
zeros, optional fraction, optional exponent; exact rational value. -/
def parseJNum (s : List Char) : Option (Rat × List Char) :=
  let (neg, s1) := match s with
    | c :: r => if c = '-' then (true, r) else (false, s)
    | [] => (false, s)
  match s1 with
  | [] => none
  | d :: _ =>
    if !d.isDigit then none
    else
      let (ip, s2) :=
        if d = '0' then ([d], s1.tail)
        else (s1.takeWhile Char.isDigit, s1.dropWhile Char.isDigit)
      let (fp, s3, okf) : List Char × List Char × Bool :=
        match s2 with
        | p :: r =>
          if p = '.' then
            let fd := r.takeWhile Char.isDigit
            if fd = [] then ([], s2, false)
            else (fd, r.dropWhile Char.isDigit, true)
          else ([], s2, true)
        | [] => ([], s2, true)
      if !okf then none
      else
        match s3 with
        | p :: r =>
          if p = 'e' ∨ p = 'E' then
            let (eneg, r1) := match r with
              | c :: r2 =>
                if c = '-' then (true, r2)
                else if c = '+' then (false, r2) else (false, r)
              | [] => (false, r)
            let ed := r1.takeWhile Char.isDigit
            if ed = [] then none
            else
              let e : Int := (if eneg then -1 else 1) * (digitsToNat ed : Int)
              some (decToRat neg ip fp e, r1.dropWhile Char.isDigit)
          else some (decToRat neg ip fp 0, s3)
        | [] => some (decToRat neg ip fp 0, s3)

/-- Update an association list at a key, keeping its position (Python dict
assignment), appending when absent. -/
def assocUpd (kvs : List (List Char × JVal)) (k : List Char) (v : JVal) :
    List (List Char × JVal) :=
  match kvs with
  | [] => [(k, v)]
  | (k0, v0) :: rest => if k0 = k then (k0, v) :: rest else (k0, v0) :: assocUpd rest k v

mutual

/-- Fueled recursive-descent JSON value parser modelling `json.loads`
(python stdlib; the `NaN`, `Infinity` and `-Infinity` extensions are not
modelled). -/
def parseJVal : Nat → List Char → Option (JVal × List Char)
  | 0, _ => none
  | fu + 1, s =>
    match jSkip s with
    | [] => none
    | c :: rest =>
      if c = lbrace then parseJObj fu rest
      else if c = Char.ofNat 91 then parseJArr fu rest
      else if c = dquote then (parseJStr (rest.length + 1) rest).map (fun p => (.str p.1, p.2))
      else if c = 't' then
        if ("rue").toList.isPrefixOf rest then some (.boolean true, rest.drop 3) else none
      else if c = 'f' then
        if ("alse").toList.isPrefixOf rest then some (.boolean false, rest.drop 4) else none
      else if c = 'n' then
        if ("ull").toList.isPrefixOf rest then some (.null, rest.drop 3) else none
      else (parseJNum (c :: rest)).map (fun p => (.num p.1, p.2))

/-- Array items after the opening bracket. -/
def parseJArr : Nat → List Char → Option (JVal × List Char)
  | 0, _ => none
  | fu + 1, s =>
    match jSkip s with
    | c :: rest =>
      if c = Char.ofNat 93 then some (.arr [], rest)
      else
        match parseJVal fu s with
        | none => none
        | some (v, s1) => parseJArrRest fu [v] s1
    | [] => none

/-- Remaining array items: a comma then a value, or the closing bracket. -/
def parseJArrRest : Nat → List JVal → List Char → Option (JVal × List Char)
  | 0, _, _ => none
  | fu + 1, acc, s =>
    match jSkip s with
    | c :: rest =>
      if c = Char.ofNat 93 then some (.arr acc, rest)
      else if c = ',' then
        match parseJVal fu rest with
        | none => none
        | some (v, s1) => parseJArrRest fu (acc ++ [v]) s1
      else none
    | [] => none

/-- Object members after the opening brace. -/
def parseJObj : Nat → List Char → Option (JVal × List Char)
  | 0, _ => none
  | fu + 1, s =>
    match jSkip s with
    | c :: rest =>
      if c = rbrace then some (.obj [], rest)
      else if c = dquote then
        match parseJStr (rest.length + 1) rest with
        | none => none
        | some (k, s1) =>
          match jSkip s1 with
          | c2 :: s2 =>
            if c2 = ':' then
              match parseJVal fu s2 with
              | none => none
              | some (v, s3) => parseJObjRest fu (assocUpd [] k v) s3
            else none
          | [] => none
      else none
    | [] => none

/-- Remaining object members: a comma then a member, or the closing brace. -/
def parseJObjRest : Nat → List (List Char × JVal) → List Char →
    Option (JVal × List Char)
  | 0, _, _ => none
  | fu + 1, acc, s =>
    match jSkip s with
    | c :: rest =>
      if c = rbrace then some (.obj acc, rest)
      else if c = ',' then
        match jSkip rest with
        | c2 :: s1 =>
          if c2 = dquote then
            match parseJStr (s1.length + 1) s1 with
            | none => none
            | some (k, s2) =>
              match jSkip s2 with
              | c3 :: s3 =>
                if c3 = ':' then
                  match parseJVal fu s3 with
                  | none => none
                  | some (v, s4) => parseJObjRest fu (assocUpd acc k v) s4
                else none
              | [] => none
          else none
        | [] => none
      else none
    | [] => none

end

/-- Model of `json.loads`: parse one value and require only whitespace after
it; `none` models `json.JSONDecodeError`. -/
def jsonLoads (s : List Char) : Option JVal :=
  match parseJVal (3 * s.length + 16) s with
  | some (v, rest) => if jSkip rest = [] then some v else none
  | none => none

/-- Python `str` whitespace (ASCII subset relevant here), used by `strip()`
and the regex class backslash-s. -/
def pySpace (c : Char) : Bool :=
  c = ' ' || c = Char.ofNat 9 || c = Char.ofNat 10 || c = Char.ofNat 13 ||
    c = Char.ofNat 11 || c = Char.ofNat 12

/-- Python `str.strip()`. -/
def pyStrip (s : List Char) : List Char :=
  ((s.dropWhile pySpace).reverse.dropWhile pySpace).reverse

/-- Helper for whitespace collapsing: the flag records whether the previous
character belonged to a whitespace run already emitted as one space. -/
def collapseAux : Bool → List Char → List Char
  | _, [] => []
  | prevWs, c :: rest =>
    if pySpace c then
      if prevWs then collapseAux true rest else ' ' :: collapseAux true rest
    else c :: collapseAux false rest

/-- Model of `re.sub` of one-or-more whitespace by a single space. -/
def collapseWs (s : List Char) : List Char := collapseAux false s

/-- Python `value.get(key, default)`: only mappings have `.get`; any other
value raises `AttributeError`. -/
def jGet (v : JVal) (k : List Char) (dflt : JVal) : PyM JVal :=
  match v with
  | .obj kvs => pure (((kvs.find? (fun p => p.1 == k)).map Prod.snd).getD dflt)
  | _ => throw .attributeError

/-- Python truthiness of the values `json.loads` can produce. -/
def pyTruthy : JVal → Bool
  | .null => false
  | .boolean b => b
  | .num q => decide (q ≠ 0)
  | .str s => !s.isEmpty
  | .arr xs => !xs.isEmpty
  | .obj kvs => !kvs.isEmpty

/-- Python iteration over a value: lists yield elements, strings yield
one-character strings, dicts yield their keys, anything else raises
`TypeError`. -/
def pyIter : JVal → PyM (List JVal)
  | .arr xs => pure xs
  | .str s => pure (s.map (fun c => .str [c]))
  | .obj kvs => pure (kvs.map (fun p => .str p.1))
  | _ => throw .typeError

/-- Python `"".join(parts)`: every part must be a string, otherwise
`TypeError`. -/
def pyJoin (parts : List JVal) : PyM (List Char) :=
  parts.foldlM
    (fun acc v =>
      match v with
      | .str s => pure (acc ++ s)
      | _ => throw .typeError) []

/-- Truncation of a rational toward zero, as Python `int()` on a float. -/
def ratTruncInt (q : Rat) : Int := Int.tdiv q.num q.den

/-- Python `int(string)`: optional surrounding whitespace, optional sign,
decimal digits (digit-group underscores are not modelled). -/
def intParse (s : List Char) : Option Int :=
  let t := pyStrip s
  match t with
  | [] => none
  | c :: r =>
    let (neg, ds) :=
      if c = '-' then (true, r) else if c = '+' then (false, r) else (false, t)
    if ds ≠ [] ∧ ds.all Char.isDigit then
      some ((if neg then -1 else 1) * (digitsToNat ds : Int))
    else none

/-- Python `int(x)` on values `json.loads` can produce: numbers truncate
toward zero, booleans coerce, strings parse or raise `ValueError`, anything
else raises `TypeError`. -/
def pyInt : JVal → PyM Int
  | .num q => pure (ratTruncInt q)
  | .boolean b => pure (if b then 1 else 0)
  | .str s =>
    match intParse s with
    | some n => pure n
    | none => throw .valueError
  | .null => throw .typeError
  | .arr _ => throw .typeError
  | .obj _ => throw .typeError

/-- One transcript segment of the common segment model. -/
structure Segment where
  text : List Char
  start_ms : Option Int := none
  end_ms : Option Int := none
deriving DecidableEq, Repr

/-- The equals-sign character. -/
def eqChar : Char := Char.ofNat 61

/-- Embedding of `extract_initial_player_response(html)` (source lines
125-140): find the marker token, the following equals sign, extract the
balanced object after it and parse it as JSON; every failure gives `None`. -/
def extract_initial_player_response (html : List Char) : Option JVal :=
  match pyFindStr html ("ytInitialPlayerResponse").toList 0 with
  | none => none
  | some idx =>
    match pyFindStr html [eqChar] idx with
    | none => none
    | some eq_idx =>
      match extract_balanced_json html eq_idx with
      | none => none
      | some t => if t.isEmpty then none else jsonLoads t

/-- C7: the player-response extractor returns not-found (never an exception)
when the marker is absent, when no opening brace follows the marker, when the
brace depth never returns to zero before the input ends, and when the
extracted substring is not valid JSON. -/
theorem extract_initial_player_response_failure_modes :
    (∀ html, pyFindStr html ("ytInitialPlayerResponse").toList 0 = none →
      extract_initial_player_response html = none) ∧
    (∀ html idx, pyFindStr html ("ytInitialPlayerResponse").toList 0 = some idx →
      pyFindStr html [lbrace] idx = none →
      extract_initial_player_response html = none) ∧
    (∀ html idx eq_idx b, pyFindStr html ("ytInitialPlayerResponse").toList 0 = some idx →
      pyFindStr html [eqChar] idx = some eq_idx →
      pyFindStr html [lbrace] eq_idx = some b →
      scanBal (html.drop b) 0 false false = none →
      extract_initial_player_response html = none) ∧
    (∀ html idx eq_idx t, pyFindStr html ("ytInitialPlayerResponse").toList 0 = some idx →
      pyFindStr html [eqChar] idx = some eq_idx →
      extract_balanced_json html eq_idx = some t →
      jsonLoads t = none →
      extract_initial_player_response html = none) := by
  refine ⟨?_, ?_, ?_, ?_⟩
  · intro html h
    simp only [extract_initial_player_response, h]
  · intro html idx hidx hbrace
    simp only [extract_initial_player_response, hidx]
    cases heq : pyFindStr html [eqChar] idx with
    | none => simp
    | some e =>
      have he : idx ≤ e := pyFindStr_single_ge heq
      have hnone : pyFindStr html [lbrace] e = none :=
        pyFindStr_single_none_mono hbrace he
      simp only [extract_balanced_json, hnone]
  · intro html idx eq_idx b hidx heq hb hscan
    simp only [extract_initial_player_response, hidx, heq, extract_balanced_json, hb, hscan]
  · intro html idx eq_idx t hidx heq hext hload
    simp only [extract_initial_player_response, hidx, heq, hext]
    by_cases hte : t.isEmpty
    · rw [if_pos hte]
    · rw [if_neg hte, hload]

/-- Witness for C7: a page without the marker token resolves to not-found. -/
theorem extract_initial_player_response_failure_modes_witness :
    extract_initial_player_response ("<html>no marker</html>").toList = none :=
  extract_initial_player_response_failure_modes.1 _ (by decide)

/-- Case-insensitive prefix test over characters, for the IGNORECASE regex
searches. -/
def ciStarts : List Char → List Char → Bool
  | [], _ => true
  | _ :: _, [] => false
  | p :: ps, c :: cs => (p.toLower == c.toLower) && ciStarts ps cs

/-- Suffix starting at the first case-insensitive occurrence of `pat`. -/
def dropCIFind (pat : List Char) : List Char → Option (List Char)
  | [] => none
  | c :: rest =>
    if ciStarts pat (c :: rest) then some (c :: rest) else dropCIFind pat rest

/-- Split at the first case-insensitive occurrence of `pat`: characters
before it, and the suffix starting at it. -/
def splitCIFind (pat : List Char) : List Char → Option (List Char × List Char)
  | [] => none
  | c :: rest =>
    if ciStarts pat (c :: rest) then some ([], c :: rest)
    else (splitCIFind pat rest).map (fun p => (c :: p.1, p.2))

/-- Model of `re.finditer` for the case-insensitive pattern matching a text
element: literal open tag name, attribute characters up to the first greater
than sign, then a lazily matched body up to the first closing tag.  Yields
the non-overlapping matches in order as (whole match, body group) pairs.
Fuel bounds the recursion: each step strictly shortens the suffix. -/
def textMatches : Nat → List Char → List (List Char × List Char)
  | 0, _ => []
  | fu + 1, s =>
    match dropCIFind ("<text").toList s with
    | none => []
    | some u =>
      let tail := u.drop 5
      let attrs := tail.takeWhile (fun c => !(c == '>'))
      let rest1 := tail.dropWhile (fun c => !(c == '>'))
      match rest1 with
      | [] => textMatches fu (u.drop 1)
      | _ :: afterGt =>
        match splitCIFind ("</text>").toList afterGt with
        | none => textMatches fu (u.drop 1)
        | some (body, suf2) =>
          let full := u.take 5 ++ attrs ++ ['>'] ++ body ++ suf2.take 7
          (full, body) :: textMatches fu (suf2.drop 7)

/-- A regex word character (ASCII model). -/
def wordChar (c : Char) : Bool := c.isAlphanum || c = '_'

/-- Attempt the attribute pattern at the start of `s`: the name
(case-insensitive), optional whitespace, an equals sign, optional whitespace,
a quote of either kind, then one or more characters that are not quotes of
either kind, closed by a quote of either kind; yields the group. -/
def attrTryAt (nm s : List Char) : Option (List Char) :=
  if ciStarts nm s then
    let after1 := (s.drop nm.length).dropWhile pySpace
    match after1 with
    | c :: r =>
      if c = eqChar then
        let r1 := r.dropWhile pySpace
        match r1 with
        | q :: r2 =>
          if q = dquote ∨ q = squote then
            let grp := r2.takeWhile (fun c2 => !(c2 == dquote) && !(c2 == squote))
            let r3 := r2.dropWhile (fun c2 => !(c2 == dquote) && !(c2 == squote))
            if grp.isEmpty then none
            else
              match r3 with
              | _ :: _ => some grp
              | [] => none
          else none
        | [] => none
      else none
    | [] => none
  else none

def attrSearchAux (nm : List Char) : Option Char → List Char → Option (List Char)
  | _, [] => none
  | prev, c :: rest =>
    let bOk := match prev with
      | none => true
      | some p => !wordChar p
    match (if bOk then attrTryAt nm (c :: rest) else none) with
    | some g => some g
    | none => attrSearchAux nm (some c) rest

/-- Model of `re.search` for the attribute pattern with a word boundary
before the name: leftmost position wins. -/
def attrSearch (nm s : List Char) : Option (List Char) := attrSearchAux nm none s

/-- A Python float value as far as this program observes it. -/
inductive PyFloat where
  | finite (q : Rat)
  | inf (neg : Bool)
  | nan
deriving DecidableEq, Repr

/-- Model of `float(string)`: optional whitespace and sign, infinity and nan
words, or a decimal literal with optional fraction and exponent.  Values are
exact rationals; IEEE-754 rounding and overflow of large exponents to
infinity are not modelled. -/
def pyFloatParse (s : List Char) : Option PyFloat :=
  let t := pyStrip s
  let (neg, t1) := match t with
    | c :: r => if c = '-' then (true, r) else if c = '+' then (false, r) else (false, t)
    | [] => (false, t)
  let lower := t1.map Char.toLower
  if lower = ("inf").toList ∨ lower = ("infinity").toList then some (.inf neg)
  else if lower = ("nan").toList then some .nan
  else
    let ip := t1.takeWhile Char.isDigit
    let r1 := t1.dropWhile Char.isDigit
    let (fp, r2) := match r1 with
      | p :: r =>
        if p = '.' then (r.takeWhile Char.isDigit, r.dropWhile Char.isDigit)
        else ([], r1)
      | [] => ([], r1)
    if ip = [] ∧ fp = [] then none
    else
      match r2 with
      | [] => some (.finite (decToRat neg ip fp 0))
      | p :: r =>
        if p = 'e' ∨ p = 'E' then
          let (eneg, r3) := match r with
            | c :: r4 =>
              if c = '-' then (true, r4)
              else if c = '+' then (false, r4) else (false, r)
            | [] => (false, r)
          let ed := r3.takeWhile Char.isDigit
          if ed = [] ∨ r3.dropWhile Char.isDigit ≠ [] then none
          else
            let e : Int := (if eneg then -1 else 1) * (digitsToNat ed : Int)
            some (.finite (decToRat neg ip fp e))
        else none

/-- Multiplication by 1000 lifted to float values, built with `Rat.divInt`
over integer arithmetic. -/
def pfMul1000 : PyFloat → PyFloat
  | .finite q => .finite (Rat.divInt (q.num * 1000) (q.den : Int))
  | .inf n => .inf n
  | .nan => .nan

/-- Python `int()` on a float: truncation toward zero; infinity raises
`OverflowError`, nan raises `ValueError`. -/
def pyIntOfFloat : PyFloat → PyM Int
  | .finite q => pure (ratTruncInt q)
  | .inf _ => throw .overflowError
  | .nan => throw .valueError

/-- Model of `html.unescape` restricted to the five standard named
references and decimal numeric references with semicolons; hexadecimal and
legacy no-semicolon forms are not modelled (no claim depends on them).
Unknown references stay as-is. -/
def pyUnescapeAux : Nat → List Char → List Char
  | 0, s => s
  | _, [] => []
  | fu + 1, c :: rest =>
    if c = '&' then
      if ("amp;").toList.isPrefixOf rest then '&' :: pyUnescapeAux fu (rest.drop 4)
      else if ("lt;").toList.isPrefixOf rest then '<' :: pyUnescapeAux fu (rest.drop 3)
      else if ("gt;").toList.isPrefixOf rest then '>' :: pyUnescapeAux fu (rest.drop 3)
      else if ("quot;").toList.isPrefixOf rest then dquote :: pyUnescapeAux fu (rest.drop 5)
      else if ("apos;").toList.isPrefixOf rest then squote :: pyUnescapeAux fu (rest.drop 5)
      else
        match rest with
        | h :: r2 =>
          if h = '#' then
            let ds := r2.takeWhile Char.isDigit
            let r3 := r2.dropWhile Char.isDigit
            match ds, r3 with
            | _ :: _, semi :: r4 =>
              if semi = ';' then Char.ofNat (digitsToNat ds) :: pyUnescapeAux fu r4
              else '&' :: pyUnescapeAux fu rest
            | _, _ => '&' :: pyUnescapeAux fu rest
          else '&' :: pyUnescapeAux fu rest
        | [] => ['&']
    else c :: pyUnescapeAux fu rest

def pyUnescape (s : List Char) : List Char := pyUnescapeAux (s.length + 1) s

/-- Final `return segments if segments else None` shared by all parsers. -/
def finishSegs (segments : List Segment) : PyM (Option (List Segment)) :=
  pure (if segments.isEmpty then none else some segments)

/-- The Python test `value is None`: with `json.loads` output, both an
absent key (default `None`) and a JSON null land on the `null` value. -/
def jIsNull : JVal → Bool
  | .null => true
  | _ => false

/-- The timing fields of one JSON3 event: `start_ms` is set when `tStartMs`
is not `None`, and `end_ms` additionally needs `dDurationMs`; there is no
try block in the source here, so `int()` failures propagate. -/
def json3Times (base : Segment) (startV durV : JVal) : PyM Segment :=
  if jIsNull startV then pure base
  else do
    let n ← pyInt startV
    if jIsNull durV then pure { base with start_ms := some n }
    else do
      let m ← pyInt durV
      pure { base with start_ms := some n, end_ms := some (n + m) }

/-- One event of the compact JSON3 format (body of the loop in source lines
210-230). -/
def json3Event (acc : List Segment) (event : JVal) : PyM (List Segment) := do
  let segsV ← jGet event ("segs").toList .null
  if pyTruthy segsV = false then pure acc
  else do
    let segList ← pyIter segsV
    let parts ← segList.foldlM
      (fun ps seg => do
        let u ← jGet seg ("utf8").toList (.str [])
        if pyTruthy u then pure (ps ++ [u]) else pure ps) ([] : List JVal)
    let text1 ← pyJoin parts
    let text := pyStrip text1
    if text.isEmpty then pure acc
    else do
      let startV ← jGet event ("tStartMs").toList .null
      let durV ← jGet event ("dDurationMs").toList .null
      let seg ← json3Times { text := pyStrip (collapseWs text) } startV durV
      pure (acc ++ [seg])

/-- Embedding of `parse_json3_transcript` (source lines 198-232).  Only
`json.JSONDecodeError` is caught; every other exception escapes. -/
def parse_json3_transcript (text : List Char) : PyM (Option (List Segment)) :=
  match jsonLoads text with
  | none => pure none
  | some data => do
    let events ← jGet data ("events").toList (.arr [])
    if pyTruthy events = false then pure none
    else do
      let evList ← pyIter events
      let segments ← evList.foldlM json3Event []
      finishSegs segments

/-- Outcome of `int(float(g) * 1000)` for the start attribute under the
try block catching `ValueError` only: a successful conversion sets the
start offset, `ValueError` leaves the segment untouched, anything else
(only `OverflowError` can occur) propagates. -/
def floatToStart (t2 : List Char) (r : PyM Int) : PyM Segment :=
  match r with
  | .ok n => pure { text := t2, start_ms := some n }
  | .error .valueError => pure { text := t2 }
  | .error e => throw e

/-- Same for the dur attribute: a successful conversion sets the end offset
from the start offset `n`. -/
def floatToEnd (seg1 : Segment) (n : Int) (r : PyM Int) : PyM Segment :=
  match r with
  | .ok m2 => pure { seg1 with end_ms := some (n + m2) }
  | .error .valueError => pure seg1
  | .error e => throw e

/-- The start attribute of one matched text element: `float()` sits in a try
block catching `ValueError` only, so an infinite attribute value still
raises `OverflowError` out of `int()`. -/
def xmlStartSeg (t2 tag : List Char) : PyM Segment :=
  match attrSearch ("start").toList tag with
  | none => pure { text := t2 }
  | some g =>
    match pyFloatParse g with
    | none => pure { text := t2 }
    | some f => floatToStart t2 (pyIntOfFloat (pfMul1000 f))

/-- The dur attribute of one matched text element, used only when a start
offset was set; same exception behavior as the start attribute. -/
def xmlDurSeg (seg1 : Segment) (tag : List Char) : PyM Segment :=
  match seg1.start_ms with
  | none => pure seg1
  | some n =>
    match attrSearch ("dur").toList tag with
    | none => pure seg1
    | some g =>
      match pyFloatParse g with
      | none => pure seg1
      | some f => floatToEnd seg1 n (pyIntOfFloat (pfMul1000 f))

/-- One matched text element of the timed-XML format (body of the loop in
source lines 242-265). -/
def xmlMatchSeg (acc : List Segment) (m : List Char × List Char) :
    PyM (List Segment) := do
  let t2 := collapseWs (pyStrip (pyUnescape m.2))
  if t2.isEmpty then pure acc
  else do
    let seg1 ← xmlStartSeg t2 m.1
    let seg2 ← xmlDurSeg seg1 m.1
    pure (acc ++ [seg2])

/-- Embedding of `parse_xml_transcript` (source lines 235-267). -/
def parse_xml_transcript (xml : List Char) : PyM (Option (List Segment)) := do
  let segments ← (textMatches (xml.length + 1) xml).foldlM xmlMatchSeg []
  finishSegs segments

/-- Python `value[0]`. -/
def pySub0 : JVal → PyM JVal
  | .arr (x :: _) => pure x
  | .arr [] => throw .indexError
  | .str (c :: _) => pure (.str [c])
  | .str [] => throw .indexError
  | .obj _ => throw .keyError
  | _ => throw .typeError

/-- The timing fields of one youtubei segment renderer: the `int()`
conversions sit in a try block catching `ValueError` and `TypeError`, which
are the only exceptions `int()` can raise here, so the conversion never
raises; the start offset assignment survives a failing duration conversion
(dict mutation happens before the exception). -/
def ytTimes (base : Segment) (startV durV : JVal) : Segment :=
  if jIsNull startV then base
  else
    match pyInt startV with
    | .error _ => base
    | .ok n =>
      if jIsNull durV then { base with start_ms := some n }
      else
        match pyInt durV with
        | .error _ => { base with start_ms := some n }
        | .ok m => { base with start_ms := some n, end_ms := some (n + m) }

/-- One segment renderer of the youtubei response (body of the loop in
source lines 361-379). -/
def ytSegOne (acc : List Segment) (seg : JVal) : PyM (List Segment) := do
  let seg_renderer ← jGet seg ("transcriptSegmentRenderer").toList (.obj [])
  let snippet ← jGet seg_renderer ("snippet").toList (.obj [])
  let runs ← jGet snippet ("runs").toList (.arr [])
  let runList ← pyIter runs
  let parts ← runList.foldlM
    (fun ps r => do
      let t ← jGet r ("text").toList (.str [])
      pure (ps ++ [t])) ([] : List JVal)
  let joined ← pyJoin parts
  let text := pyStrip joined
  if text.isEmpty then pure acc
  else do
    let startV ← jGet seg_renderer ("startMs").toList .null
    let durV ← jGet seg_renderer ("durationMs").toList .null
    pure (acc ++ [ytTimes { text := pyStrip (collapseWs text) } startV durV])

/-- The guarded body of `parse_youtubei_response` (source lines 343-381). -/
def parse_youtubei_inner (data : JVal) : PyM (Option (List Segment)) := do
  let actions ← jGet data ("actions").toList (.arr [])
  if pyTruthy actions = false then pure none
  else do
    let a0 ← pySub0 actions
    let panel ← jGet a0 ("updateEngagementPanelAction").toList (.obj [])
    let content ← jGet panel ("content").toList (.obj [])
    let renderer ← jGet content ("transcriptRenderer").toList (.obj [])
    let body_content ← jGet renderer ("content").toList (.obj [])
    let search_panel ← jGet body_content ("transcriptSearchPanelRenderer").toList (.obj [])
    let body ← jGet search_panel ("body").toList (.obj [])
    let segment_list ← jGet body ("transcriptSegmentListRenderer").toList (.obj [])
    let initial_segments ← jGet segment_list ("initialSegments").toList (.arr [])
    if pyTruthy initial_segments = false then pure none
    else do
      let segList ← pyIter initial_segments
      let segments ← segList.foldlM ytSegOne []
      finishSegs segments

/-- Embedding of `parse_youtubei_response` (source lines 341-384): the body
runs under `except (KeyError, IndexError, TypeError)`, which returns `None`;
any other exception (notably `AttributeError`) escapes. -/
def parse_youtubei_response (data : JVal) : PyM (Option (List Segment)) :=
  match parse_youtubei_inner data with
  | .ok r => .ok r
  | .error e =>
    if e = .keyError ∨ e = .indexError ∨ e = .typeError then .ok none else .error e

theorem PyM_bind_ok {α β : Type} {m : PyM α} {k : α → PyM β} {b : β}
    (h : (m >>= k) = .ok b) : ∃ a, m = .ok a ∧ k a = .ok b := by
  cases m with
  | error e => simp [Bind.bind, Except.bind] at h
  | ok a => exact ⟨a, rfl, by simpa [Bind.bind, Except.bind] using h⟩

theorem PyM_bind_error {α β : Type} {m : PyM α} {k : α → PyM β} {e : PyExc}
    (h : (m >>= k) = .error e) : m = .error e ∨ ∃ a, m = .ok a ∧ k a = .error e := by
  cases m with
  | error e2 =>
    left
    simpa [Bind.bind, Except.bind] using h
  | ok a =>
    right
    exact ⟨a, rfl, by simpa [Bind.bind, Except.bind] using h⟩

theorem finishSegs_ok_some {segs l : List Segment}
    (h : finishSegs segs = .ok (some l)) : l = segs ∧ l ≠ [] := by
  unfold finishSegs at h
  by_cases he : segs.isEmpty
  · rw [if_pos he] at h
    simp [pure, Except.pure] at h
  · rw [if_neg he] at h
    simp [pure, Except.pure] at h
    subst h
    exact ⟨rfl, by simpa [List.isEmpty_iff] using he⟩

theorem finishSegs_ne_error (segs : List Segment) (e : PyExc) :
    finishSegs segs ≠ .error e := by
  unfold finishSegs
  by_cases he : segs.isEmpty
  · rw [if_pos he]; simp [pure, Except.pure]
  · rw [if_neg he]; simp [pure, Except.pure]

theorem foldlM_error_imp {α : Type} {f : List Segment → α → PyM (List Segment)}
    (hf : ∀ acc m e, f acc m = .error e → e = .overflowError) :
    ∀ (l : List α) (acc : List Segment) (e : PyExc),
      List.foldlM f acc l = .error e → e = .overflowError := by
  intro l
  induction l with
  | nil => intro acc e h; simp [List.foldlM, pure, Except.pure] at h
  | cons x xs ih =>
    intro acc e h
    rw [List.foldlM_cons] at h
    rcases PyM_bind_error h with h1 | ⟨a, _, h2⟩
    · exact hf acc x e h1
    · exact ih a e h2

theorem foldlM_inv {α : Type} {P : Segment → Prop}
    {f : List Segment → α → PyM (List Segment)}
    (hf : ∀ acc m res, (∀ g ∈ acc, P g) → f acc m = .ok res → ∀ g ∈ res, P g) :
    ∀ (l : List α) (acc res : List Segment), (∀ g ∈ acc, P g) →
      List.foldlM f acc l = .ok res → ∀ g ∈ res, P g := by
  intro l
  induction l with
  | nil =>
    intro acc res hacc h
    simp [List.foldlM, pure, Except.pure] at h
    subst h
    exact hacc
  | cons x xs ih =>
    intro acc res hacc h
    rw [List.foldlM_cons] at h
    obtain ⟨a, ha, h2⟩ := PyM_bind_ok h
    exact ih a res (hf acc x a hacc ha) h2

theorem mem_dropWhile_of_not {p : Char → Bool} {l : List Char} {x : Char}
    (hx : x ∈ l) (hpx : p x = false) : x ∈ l.dropWhile p := by
  induction l with
  | nil => cases hx
  | cons c cs ih =>
    rw [List.dropWhile_cons]
    by_cases hc : p c
    · rw [if_pos hc]
      rcases List.mem_cons.mp hx with h | h
      · subst h; rw [hpx] at hc; cases hc
      · exact ih h
    · rw [if_neg hc]; exact hx

theorem dropWhile_head_not {p : Char → Bool} :
    ∀ {l : List Char} {c : Char} {rest : List Char},
      l.dropWhile p = c :: rest → p c = false := by
  intro l
  induction l with
  | nil => intro c rest h; simp at h
  | cons a as ih =>
    intro c rest h
    rw [List.dropWhile_cons] at h
    by_cases ha : p a
    · rw [if_pos ha] at h
      exact ih h
    · rw [if_neg ha] at h
      cases h
      simpa using ha

/-- The list holds at least one non-whitespace character. -/
def hasInk (l : List Char) : Prop := ∃ c ∈ l, pySpace c = false

theorem pyStrip_ne_nil_of_hasInk {l : List Char} (h : hasInk l) : pyStrip l ≠ [] := by
  obtain ⟨c, hc, hcp⟩ := h
  have h1 : c ∈ l.dropWhile pySpace := mem_dropWhile_of_not hc hcp
  have h2 : c ∈ (l.dropWhile pySpace).reverse := by simpa using h1
  have h3 : c ∈ ((l.dropWhile pySpace).reverse.dropWhile pySpace) :=
    mem_dropWhile_of_not h2 hcp
  intro hnil
  unfold pyStrip at hnil
  rw [List.reverse_eq_nil_iff] at hnil
  rw [hnil] at h3
  cases h3

theorem hasInk_of_pyStrip_ne_nil {l : List Char} (h : pyStrip l ≠ []) :
    hasInk (pyStrip l) := by
  unfold pyStrip at h ⊢
  have hm : (l.dropWhile pySpace).reverse.dropWhile pySpace ≠ [] := by
    intro he
    rw [he] at h
    simp at h
  obtain ⟨c, rest, hcr⟩ := List.exists_cons_of_ne_nil hm
  refine ⟨c, ?_, dropWhile_head_not hcr⟩
  rw [List.mem_reverse, hcr]
  simp

theorem hasInk_collapseAux {l : List Char} (h : hasInk l) :
    ∀ b, hasInk (collapseAux b l) := by
  induction l with
  | nil => obtain ⟨c, hc, _⟩ := h; cases hc
  | cons c cs ih =>
    intro b
    obtain ⟨x, hx, hxp⟩ := h
    by_cases hc : pySpace c
    · have hxcs : x ∈ cs := by
        rcases List.mem_cons.mp hx with he | he
        · subst he; rw [hxp] at hc; cases hc
        · exact he
      have ihr := ih ⟨x, hxcs, hxp⟩ true
      obtain ⟨y, hy, hyp⟩ := ihr
      unfold collapseAux
      rw [if_pos hc]
      by_cases hb : b
      · subst hb; exact ⟨y, hy, hyp⟩
      · simp only [hb]
        exact ⟨y, by simp [hy], hyp⟩
    · unfold collapseAux
      rw [if_neg hc]
      by_cases hxc : x = c
      · subst hxc
        exact ⟨x, by simp, hxp⟩
      · have hxcs : x ∈ cs := by
          rcases List.mem_cons.mp hx with he | he
          · exact absurd he hxc
          · exact he
        obtain ⟨y, hy, hyp⟩ := ih ⟨x, hxcs, hxp⟩ false
        exact ⟨y, by simp [hy], hyp⟩

/-- Stripping, collapsing whitespace and stripping again keeps a stripped
non-empty text non-empty. -/
theorem strip_collapse_strip_ne_nil {t : List Char} (h : pyStrip t ≠ []) :
    pyStrip (collapseWs (pyStrip t)) ≠ [] := by
  have h1 : hasInk (pyStrip t) := hasInk_of_pyStrip_ne_nil h
  have h2 : hasInk (collapseWs (pyStrip t)) := hasInk_collapseAux h1 false
  exact pyStrip_ne_nil_of_hasInk h2

/-- The segment invariant that holds for every producer unconditionally:
non-empty text, and an end offset only together with a start offset. -/
def segWF0 (s : Segment) : Prop := s.text ≠ [] ∧ (s.end_ms.isSome → s.start_ms.isSome)

theorem PyM_throw_eq {α : Type} (e : PyExc) : (throw e : PyM α) = .error e := rfl

theorem json3Times_ok {base s : Segment} {sV dV : JVal} (hb : base.end_ms = none)
    (h : json3Times base sV dV = .ok s) :
    s.text = base.text ∧ (s.end_ms.isSome → s.start_ms.isSome) := by
  unfold json3Times at h
  by_cases h1 : jIsNull sV
  · rw [if_pos h1] at h
    simp [pure, Except.pure] at h
    subst h
    simp [hb]
  · rw [if_neg h1] at h
    obtain ⟨n, _, h⟩ := PyM_bind_ok h
    by_cases h2 : jIsNull dV
    · rw [if_pos h2] at h
      simp [pure, Except.pure] at h
      subst h
      simp [hb]
    · rw [if_neg h2] at h
      obtain ⟨m, _, h⟩ := PyM_bind_ok h
      simp [pure, Except.pure] at h
      subst h
      simp

theorem ytTimes_wf (base : Segment) (sV dV : JVal) (hb : base.end_ms = none) :
    (ytTimes base sV dV).text = base.text ∧
    ((ytTimes base sV dV).end_ms.isSome → (ytTimes base sV dV).start_ms.isSome) := by
  unfold ytTimes
  by_cases h1 : jIsNull sV
  · rw [if_pos h1]; simp [hb]
  · rw [if_neg h1]
    split
    · simp [hb]
    · by_cases h2 : jIsNull dV
      · rw [if_pos h2]; simp [hb]
      · rw [if_neg h2]
        split
        · simp [hb]
        · simp

theorem floatToStart_ok {t2 : List Char} {s : Segment} {f : PyFloat}
    (h : floatToStart t2 (pyIntOfFloat (pfMul1000 f)) = .ok s) :
    s.text = t2 ∧ s.end_ms = none := by
  cases f with
  | finite q =>
    simp [pfMul1000, pyIntOfFloat, floatToStart, pure, Except.pure] at h
    subst h
    exact ⟨rfl, rfl⟩
  | inf b => simp [pfMul1000, pyIntOfFloat, floatToStart, PyM_throw_eq] at h
  | nan =>
    simp [pfMul1000, pyIntOfFloat, floatToStart, pure, Except.pure, PyM_throw_eq] at h
    subst h
    exact ⟨rfl, rfl⟩

theorem floatToStart_error {t2 : List Char} {e : PyExc} {f : PyFloat}
    (h : floatToStart t2 (pyIntOfFloat (pfMul1000 f)) = .error e) :
    e = .overflowError := by
  cases f with
  | finite q => simp [pfMul1000, pyIntOfFloat, floatToStart, pure, Except.pure] at h
  | inf b =>
    simp [pfMul1000, pyIntOfFloat, floatToStart, PyM_throw_eq] at h
    exact h.symm
  | nan => simp [pfMul1000, pyIntOfFloat, floatToStart, pure, Except.pure, PyM_throw_eq] at h

theorem floatToEnd_ok {seg1 s : Segment} {n : Int} {f : PyFloat}
    (hstart : seg1.start_ms = some n)
    (h : floatToEnd seg1 n (pyIntOfFloat (pfMul1000 f)) = .ok s) :
    s.text = seg1.text ∧ s.start_ms = seg1.start_ms ∧
      (s.end_ms = seg1.end_ms ∨ s.start_ms.isSome) := by
  cases f with
  | finite q =>
    simp [pfMul1000, pyIntOfFloat, floatToEnd, pure, Except.pure] at h
    subst h
    exact ⟨rfl, rfl, Or.inr (by simp [hstart])⟩
  | inf b => simp [pfMul1000, pyIntOfFloat, floatToEnd, PyM_throw_eq] at h
  | nan =>
    simp [pfMul1000, pyIntOfFloat, floatToEnd, pure, Except.pure, PyM_throw_eq] at h
    subst h
    exact ⟨rfl, rfl, Or.inl rfl⟩

theorem floatToEnd_error {seg1 : Segment} {n : Int} {e : PyExc} {f : PyFloat}
    (h : floatToEnd seg1 n (pyIntOfFloat (pfMul1000 f)) = .error e) :
    e = .overflowError := by
  cases f with
  | finite q => simp [pfMul1000, pyIntOfFloat, floatToEnd, pure, Except.pure] at h
  | inf b =>
    simp [pfMul1000, pyIntOfFloat, floatToEnd, PyM_throw_eq] at h
    exact h.symm
  | nan => simp [pfMul1000, pyIntOfFloat, floatToEnd, pure, Except.pure, PyM_throw_eq] at h

theorem xmlStartSeg_ok {t2 tag : List Char} {s : Segment}
    (h : xmlStartSeg t2 tag = .ok s) : s.text = t2 ∧ s.end_ms = none := by
  unfold xmlStartSeg at h
  split at h
  · simp [pure, Except.pure] at h
    subst h
    exact ⟨rfl, rfl⟩
  · split at h
    · simp [pure, Except.pure] at h
      subst h
      exact ⟨rfl, rfl⟩
    · exact floatToStart_ok h

theorem xmlStartSeg_error {t2 tag : List Char} {e : PyExc}
    (h : xmlStartSeg t2 tag = .error e) : e = .overflowError := by
  unfold xmlStartSeg at h
  split at h
  · simp [pure, Except.pure] at h
  · split at h
    · simp [pure, Except.pure] at h
    · exact floatToStart_error h

theorem xmlDurSeg_ok {seg1 s : Segment} {tag : List Char}
    (h : xmlDurSeg seg1 tag = .ok s) :
    s.text = seg1.text ∧ s.start_ms = seg1.start_ms ∧
      (s.end_ms = seg1.end_ms ∨ s.start_ms.isSome) := by
  unfold xmlDurSeg at h
  split at h
  · simp [pure, Except.pure] at h
    subst h
    exact ⟨rfl, rfl, Or.inl rfl⟩
  · rename_i n hstart
    split at h
    · simp [pure, Except.pure] at h
      subst h
      exact ⟨rfl, rfl, Or.inl rfl⟩
    · split at h
      · simp [pure, Except.pure] at h
        subst h
        exact ⟨rfl, rfl, Or.inl rfl⟩
      · exact floatToEnd_ok hstart h

theorem xmlDurSeg_error {seg1 : Segment} {tag : List Char} {e : PyExc}
    (h : xmlDurSeg seg1 tag = .error e) : e = .overflowError := by
  unfold xmlDurSeg at h
  split at h
  · simp [pure, Except.pure] at h
  · split at h
    · simp [pure, Except.pure] at h
    · split at h
      · simp [pure, Except.pure] at h
      · exact floatToEnd_error h

theorem xmlMatchSeg_ok {acc res : List Segment} {m : List Char × List Char}
    (h : xmlMatchSeg acc m = .ok res) :
    res = acc ∨ ∃ seg, res = acc ++ [seg] ∧ segWF0 seg := by
  simp only [xmlMatchSeg] at h
  by_cases ht : (collapseWs (pyStrip (pyUnescape m.2))).isEmpty
  · rw [if_pos ht] at h
    left
    simp [pure, Except.pure] at h
    exact h.symm
  · rw [if_neg ht] at h
    obtain ⟨seg1, h1, h⟩ := PyM_bind_ok h
    obtain ⟨seg2, h2, h⟩ := PyM_bind_ok h
    simp [pure, Except.pure] at h
    right
    refine ⟨seg2, h.symm, ?_, ?_⟩
    · obtain ⟨ht1, _⟩ := xmlStartSeg_ok h1
      obtain ⟨ht2, _, _⟩ := xmlDurSeg_ok h2
      rw [ht2, ht1]
      simpa [List.isEmpty_iff] using ht
    · intro hsome
      obtain ⟨_, he1⟩ := xmlStartSeg_ok h1
      obtain ⟨_, hs2, hd2⟩ := xmlDurSeg_ok h2
      rcases hd2 with he | hs
      · rw [he, he1] at hsome
        simp at hsome
      · exact hs

theorem xmlMatchSeg_error {acc : List Segment} {m : List Char × List Char} {e : PyExc}
    (h : xmlMatchSeg acc m = .error e) : e = .overflowError := by
  simp only [xmlMatchSeg] at h
  by_cases ht : (collapseWs (pyStrip (pyUnescape m.2))).isEmpty
  · rw [if_pos ht] at h
    simp [pure, Except.pure] at h
  · rw [if_neg ht] at h
    rcases PyM_bind_error h with h1 | ⟨s1, _, h⟩
    · exact xmlStartSeg_error h1
    · rcases PyM_bind_error h with h2 | ⟨s2, _, h⟩
      · exact xmlDurSeg_error h2
      · simp [pure, Except.pure] at h

theorem json3Event_ok {acc res : List Segment} {ev : JVal}
    (h : json3Event acc ev = .ok res) :
    res = acc ∨ ∃ seg, res = acc ++ [seg] ∧ segWF0 seg := by
  simp only [json3Event] at h
  obtain ⟨segsV, _, h⟩ := PyM_bind_ok h
  by_cases h1 : pyTruthy segsV = false
  · rw [if_pos h1] at h
    left
    simp [pure, Except.pure] at h
    exact h.symm
  · rw [if_neg h1] at h
    obtain ⟨segList, _, h⟩ := PyM_bind_ok h
    obtain ⟨parts, _, h⟩ := PyM_bind_ok h
    obtain ⟨text1, _, h⟩ := PyM_bind_ok h
    by_cases h2 : (pyStrip text1).isEmpty
    · rw [if_pos h2] at h
      left
      simp [pure, Except.pure] at h
      exact h.symm
    · rw [if_neg h2] at h
      obtain ⟨startV, _, h⟩ := PyM_bind_ok h
      obtain ⟨durV, _, h⟩ := PyM_bind_ok h
      obtain ⟨seg, hseg, h⟩ := PyM_bind_ok h
      simp [pure, Except.pure] at h
      right
      refine ⟨seg, h.symm, ?_, ?_⟩
      · obtain ⟨htext, _⟩ := json3Times_ok rfl hseg
        rw [htext]
        exact strip_collapse_strip_ne_nil (by simpa [List.isEmpty_iff] using h2)
      · exact (json3Times_ok rfl hseg).2

theorem ytSegOne_ok {acc res : List Segment} {sg : JVal}
    (h : ytSegOne acc sg = .ok res) :
    res = acc ∨ ∃ g, res = acc ++ [g] ∧ segWF0 g := by
  simp only [ytSegOne] at h
  obtain ⟨seg_renderer, _, h⟩ := PyM_bind_ok h
  obtain ⟨snippet, _, h⟩ := PyM_bind_ok h
  obtain ⟨runs, _, h⟩ := PyM_bind_ok h
  obtain ⟨runList, _, h⟩ := PyM_bind_ok h
  obtain ⟨parts, _, h⟩ := PyM_bind_ok h
  obtain ⟨joined, _, h⟩ := PyM_bind_ok h
  by_cases h2 : (pyStrip joined).isEmpty
  · rw [if_pos h2] at h
    left
    simp [pure, Except.pure] at h
    exact h.symm
  · rw [if_neg h2] at h
    obtain ⟨startV, _, h⟩ := PyM_bind_ok h
    obtain ⟨durV, _, h⟩ := PyM_bind_ok h
    simp [pure, Except.pure] at h
    right
    refine ⟨_, h.symm, ?_, ?_⟩
    · have hw := ytTimes_wf { text := pyStrip (collapseWs (pyStrip joined)) } startV durV rfl
      rw [hw.1]
      exact strip_collapse_strip_ne_nil (by simpa [List.isEmpty_iff] using h2)
    · exact (ytTimes_wf { text := pyStrip (collapseWs (pyStrip joined)) } startV durV rfl).2

theorem stepWF {α : Type} {f : List Segment → α → PyM (List Segment)}
    (hstep : ∀ acc m res, f acc m = .ok res →
      res = acc ∨ ∃ seg, res = acc ++ [seg] ∧ segWF0 seg) :
    ∀ acc m res, (∀ g ∈ acc, segWF0 g) → f acc m = .ok res → ∀ g ∈ res, segWF0 g := by
  intro acc m res hacc h g hg
  rcases hstep acc m res h with he | ⟨seg, he, hwf⟩
  · subst he
    exact hacc g hg
  · subst he
    rcases List.mem_append.mp hg with h1 | h1
    · exact hacc g h1
    · rw [List.mem_singleton] at h1
      subst h1
      exact hwf

theorem json3_ok_some {s : List Char} {l : List Segment}
    (h : parse_json3_transcript s = .ok (some l)) : l ≠ [] ∧ ∀ g ∈ l, segWF0 g := by
  unfold parse_json3_transcript at h
  cases hj : jsonLoads s with
  | none =>
    rw [hj] at h
    simp [pure, Except.pure] at h
  | some data =>
    rw [hj] at h
    obtain ⟨events, _, h⟩ := PyM_bind_ok h
    by_cases h1 : pyTruthy events = false
    · rw [if_pos h1] at h
      simp [pure, Except.pure] at h
    · rw [if_neg h1] at h
      obtain ⟨evList, _, h⟩ := PyM_bind_ok h
      obtain ⟨segments, hfold, h⟩ := PyM_bind_ok h
      obtain ⟨hl, hne⟩ := finishSegs_ok_some h
      subst hl
      exact ⟨hne, foldlM_inv (stepWF (fun acc m res hr => json3Event_ok hr)) _ _ _
        (by simp) hfold⟩

theorem xml_ok_some {s : List Char} {l : List Segment}
    (h : parse_xml_transcript s = .ok (some l)) : l ≠ [] ∧ ∀ g ∈ l, segWF0 g := by
  unfold parse_xml_transcript at h
  obtain ⟨segments, hfold, h⟩ := PyM_bind_ok h
  obtain ⟨hl, hne⟩ := finishSegs_ok_some h
  subst hl
  exact ⟨hne, foldlM_inv (stepWF (fun acc m res hr => xmlMatchSeg_ok hr)) _ _ _
    (by simp) hfold⟩

theorem yt_inner_ok_some {v : JVal} {l : List Segment}
    (h : parse_youtubei_inner v = .ok (some l)) : l ≠ [] ∧ ∀ g ∈ l, segWF0 g := by
  simp only [parse_youtubei_inner] at h
  obtain ⟨actions, _, h⟩ := PyM_bind_ok h
  by_cases h1 : pyTruthy actions = false
  · rw [if_pos h1] at h
    simp [pure, Except.pure] at h
  · rw [if_neg h1] at h
    obtain ⟨a0, _, h⟩ := PyM_bind_ok h
    obtain ⟨panel, _, h⟩ := PyM_bind_ok h
    obtain ⟨content, _, h⟩ := PyM_bind_ok h
    obtain ⟨renderer, _, h⟩ := PyM_bind_ok h
    obtain ⟨body_content, _, h⟩ := PyM_bind_ok h
    obtain ⟨search_panel, _, h⟩ := PyM_bind_ok h
    obtain ⟨body, _, h⟩ := PyM_bind_ok h
    obtain ⟨segment_list, _, h⟩ := PyM_bind_ok h
    obtain ⟨initial_segments, _, h⟩ := PyM_bind_ok h
    by_cases h2 : pyTruthy initial_segments = false
    · rw [if_pos h2] at h
      simp [pure, Except.pure] at h
    · rw [if_neg h2] at h
      obtain ⟨segList, _, h⟩ := PyM_bind_ok h
      obtain ⟨segments, hfold, h⟩ := PyM_bind_ok h
      obtain ⟨hl, hne⟩ := finishSegs_ok_some h
      subst hl
      exact ⟨hne, foldlM_inv (stepWF (fun acc m res hr => ytSegOne_ok hr)) _ _ _
        (by simp) hfold⟩

theorem yt_ok_some {v : JVal} {l : List Segment}
    (h : parse_youtubei_response v = .ok (some l)) : l ≠ [] ∧ ∀ g ∈ l, segWF0 g := by
  unfold parse_youtubei_response at h
  cases hi : parse_youtubei_inner v with
  | ok r =>
    rw [hi] at h
    have hr : r = some l := by simpa using h
    rw [hr] at hi
    exact yt_inner_ok_some hi
  | error e =>
    rw [hi] at h
    by_cases he : e = .keyError ∨ e = .indexError ∨ e = .typeError
    · simp [he] at h
    · simp [he] at h

/-- C2 counterexample: `parse_json3_transcript` applied to the valid JSON
text of an empty array raises `AttributeError` (Python lists have no `.get`),
refuting that both parsers are total and never raise on every input. -/
theorem parse_json3_nonobject_raises :
    parse_json3_transcript ("[]").toList = Except.error PyExc.attributeError := by
  rfl

/-- C2 amended: `parse_json3_transcript` returns no-segments without raising
whenever its input is not valid JSON (the only case its own handler covers),
and `parse_xml_transcript` can only raise `OverflowError` (from an infinite
start or dur attribute value); every other input is total for it. -/
theorem format_parsers_totality_amended (s : List Char) :
    (jsonLoads s = none → parse_json3_transcript s = Except.ok none) ∧
    (∀ e, parse_xml_transcript s = Except.error e → e = PyExc.overflowError) := by
  constructor
  · intro h
    unfold parse_json3_transcript
    rw [h]
    rfl
  · intro e h
    unfold parse_xml_transcript at h
    rcases PyM_bind_error h with h1 | ⟨a, _, h2⟩
    · exact foldlM_error_imp (fun acc m e2 hr => xmlMatchSeg_error hr) _ _ _ h1
    · exact absurd h2 (finishSegs_ne_error a e)

/-- Witness for the amended C2 at a concrete non-JSON input. -/
theorem format_parsers_totality_amended_witness :
    parse_json3_transcript ("not json").toList = Except.ok none :=
  (format_parsers_totality_amended (("not json").toList)).1 (by rfl)

/-- C8 counterexample: a JSON3 event with negative time values yields a
segment whose start offset is negative and whose end offset lies before its
start, refuting the non-negativity and ordering parts of the invariant. -/
theorem segment_invariant_counterexample :
    parse_json3_transcript
        ("\x7b\"events\":[\x7b\"segs\":[\x7b\"utf8\":\"x\"\x7d],\"tStartMs\":-5,\"dDurationMs\":-3\x7d]\x7d").toList =
      Except.ok (some [{ text := ['x'], start_ms := some (-5), end_ms := some (-8) }]) ∧
    ((-5 : Int) < 0 ∧ (-8 : Int) < -5) := by
  constructor
  · rfl
  · constructor
    · decide
    · decide

/-- C8 amended: every segment emitted by any of the three producers has
non-empty text and carries an end offset only together with a start offset;
the producers copy the host time values after integer conversion without
sign or ordering checks, so non-negativity of the start offset and the
ordering of end after start hold only when the input values have them. -/
theorem segment_invariant_amended :
    (∀ s l, parse_json3_transcript s = .ok (some l) → ∀ g ∈ l, segWF0 g) ∧
    (∀ s l, parse_xml_transcript s = .ok (some l) → ∀ g ∈ l, segWF0 g) ∧
    (∀ v l, parse_youtubei_response v = .ok (some l) → ∀ g ∈ l, segWF0 g) :=
  ⟨fun _ _ h => (json3_ok_some h).2,
   fun _ _ h => (xml_ok_some h).2,
   fun _ _ h => (yt_ok_some h).2⟩

/-- The segment of the specification's compact-format example. -/
def helloSeg : Segment :=
  { text := ("Hello world").toList, start_ms := some 1000, end_ms := some 1500 }

/-- The segment of the specification's timed-XML example. -/
def hiByeSeg : Segment :=
  { text := ("Hi & bye").toList, start_ms := some 1500, end_ms := some 3500 }

/-- Witness for the amended C8, on the specification's own compact-format
example. -/
theorem segment_invariant_amended_witness :
    ∀ g ∈ [helloSeg], segWF0 g :=
  segment_invariant_amended.1
    (("\x7b\"events\":[\x7b\"segs\":[\x7b\"utf8\":\"Hello \"\x7d,\x7b\"utf8\":\"world\"\x7d],\"tStartMs\":1000,\"dDurationMs\":500\x7d]\x7d").toList)
    _ (by rfl)

/-- C9: a parser that returns a segment sequence rather than no-segments
always returns a non-empty one, for all three producers. -/
theorem parsers_never_return_empty :
    (∀ s l, parse_json3_transcript s = .ok (some l) → l ≠ []) ∧
    (∀ s l, parse_xml_transcript s = .ok (some l) → l ≠ []) ∧
    (∀ v l, parse_youtubei_response v = .ok (some l) → l ≠ []) :=
  ⟨fun _ _ h => (json3_ok_some h).1,
   fun _ _ h => (xml_ok_some h).1,
   fun _ _ h => (yt_ok_some h).1⟩

/-- Witness for C9, on the specification's timed-XML example. -/
theorem parsers_never_return_empty_witness :
    ([hiByeSeg] : List Segment) ≠ [] :=
  parsers_never_return_empty.2.1
    (("<text start=\"1.5\" dur=\"2.0\">Hi &amp; bye</text>").toList) _ (by rfl)

/-- Characters allowed in a URL scheme after the first letter. -/
def schemeChar (c : Char) : Bool :=
  c.isAlpha || c.isDigit || c = '+' || c = '-' || c = '.'

/-- The result of `urllib.parse.urlparse` as far as this program uses it
(fragment discarded; params split off the last path segment). -/
structure UrlParts where
  scheme : List Char
  netloc : List Char
  path : List Char
  query : List Char
deriving DecidableEq, Repr

/-- Scheme split of `urlparse`: a valid scheme before the first colon is
removed and lowercased, otherwise the URL is left whole. -/
def splitScheme (url : List Char) : List Char × List Char :=
  let pre := url.takeWhile (fun c => !(c == ':'))
  let post := url.dropWhile (fun c => !(c == ':'))
  match post with
  | [] => ([], url)
  | _ :: after =>
    if (match pre with
        | c0 :: _ => c0.isAlpha
        | [] => false) && pre.all schemeChar then
      (pre.map Char.toLower, after)
    else ([], url)

/-- Netloc split of `urlparse`: after a leading double slash, up to the
first slash, question mark or hash. -/
def netStop (c : Char) : Bool := !(c == '/') && !(c == '?') && !(c == '#')

def splitNetloc (rest : List Char) : List Char × List Char :=
  match rest with
  | c1 :: c2 :: r =>
    if c1 = '/' ∧ c2 = '/' then (r.takeWhile netStop, r.dropWhile netStop)
    else ([], rest)
  | _ => ([], rest)

/-- Fragment removal: everything from the first hash on is dropped. -/
def dropFrag (s : List Char) : List Char := s.takeWhile (fun c => !(c == '#'))

/-- Query split at the first question mark. -/
def splitQuery (s : List Char) : List Char × List Char :=
  let path0 := s.takeWhile (fun c => !(c == '?'))
  match s.dropWhile (fun c => !(c == '?')) with
  | [] => (path0, [])
  | _ :: q => (path0, q)

/-- Params split of `urlparse`: a semicolon inside the last path segment
starts the params, which this program discards. -/
def stripParams (path0 : List Char) : List Char :=
  let segment := (path0.reverse.takeWhile (fun c => !(c == '/'))).reverse
  let segBefore := segment.takeWhile (fun c => !(c == ';'))
  if segBefore.length = segment.length then path0
  else path0.take (path0.length - segment.length) ++ segBefore

/-- Model of `urllib.parse.urlparse` restricted to the fields this program
reads. -/
def urlparse (url : List Char) : UrlParts :=
  let sp := splitScheme url
  let np := splitNetloc sp.2
  let pq := splitQuery (dropFrag np.2)
  ⟨sp.1, np.1, stripParams pq.1, pq.2⟩

/-- The `hostname` accessor: the netloc after the last at sign and before
the first colon, lowercased; empty gives `None`.  Bracketed IPv6 hosts are
not modelled. -/
def hostnameOf (netloc : List Char) : Option (List Char) :=
  let afterAt := (netloc.reverse.takeWhile (fun c => !(c == '@'))).reverse
  let host := afterAt.takeWhile (fun c => !(c == ':'))
  if host.isEmpty then none else some (host.map Char.toLower)

/-- Split on every occurrence of a separator character (Python
`str.split(sep)`). -/
def splitSep (c : Char) : List Char → List (List Char)
  | [] => [[]]
  | x :: rest =>
    if x = c then [] :: splitSep c rest
    else
      match splitSep c rest with
      | [] => [[x]]
      | h :: t => (x :: h) :: t

/-- Model of `urllib.parse.unquote_plus`: plus becomes space, percent with
two hex digits becomes the coded character (UTF-8 recombination of
multi-byte sequences is not modelled), anything else passes through. -/
def unquotePlusAux : Nat → List Char → List Char
  | 0, s => s
  | _, [] => []
  | fu + 1, c :: rest =>
    if c = '+' then ' ' :: unquotePlusAux fu rest
    else if c = '%' then
      match rest with
      | h1 :: h2 :: r2 =>
        match hexVal h1, hexVal h2 with
        | some a, some b => Char.ofNat (a * 16 + b) :: unquotePlusAux fu r2
        | _, _ => '%' :: unquotePlusAux fu rest
      | _ => '%' :: unquotePlusAux fu rest
    else c :: unquotePlusAux fu rest

def unquotePlus (s : List Char) : List Char := unquotePlusAux (s.length + 1) s

/-- Append a value to a key of the query dict, keeping first-occurrence key
order (Python dict semantics in `parse_qs`). -/
def qsAddVal (m : List (List Char × List (List Char))) (k v : List Char) :
    List (List Char × List (List Char)) :=
  match m with
  | [] => [(k, [v])]
  | (k0, vs) :: rest =>
    if k0 = k then (k0, vs ++ [v]) :: rest else (k0, vs) :: qsAddVal rest k v

/-- Model of `urllib.parse.parse_qs` with its defaults: split on ampersands,
skip empty chunks, drop pairs with an empty (or missing) value, decode names
and values with `unquote_plus`. -/
def parse_qs (query : List Char) : List (List Char × List (List Char)) :=
  (splitSep '&' query).foldl
    (fun m chunk =>
      if chunk.isEmpty then m
      else
        let name := chunk.takeWhile (fun c => !(c == eqChar))
        match chunk.dropWhile (fun c => !(c == eqChar)) with
        | [] => m
        | _ :: value =>
          if value.isEmpty then m
          else qsAddVal m (unquotePlus name) (unquotePlus value)) []

def qsLookup (m : List (List Char × List (List Char))) (k : List Char) :
    Option (List (List Char)) :=
  (m.find? (fun p => p.1 == k)).map Prod.snd

/-- Python `"youtube.com" in host`. -/
def containsSub (hay needle : List Char) : Bool := (pyFindStr hay needle 0).isSome

/-- Python `path.strip(slash)`. -/
def stripSlashes (s : List Char) : List Char :=
  ((s.dropWhile (fun c => c == '/')).reverse.dropWhile (fun c => c == '/')).reverse

/-- The alternate path shapes recognized on the main host, in source order. -/
def altShapes : List (List Char) :=
  [("/shorts/").toList, ("/live/").toList, ("/embed/").toList, ("/v/").toList]

/-- Embedding of `extract_video_id` (source lines 32-52). -/
def extract_video_id (url : List Char) : Option (List Char) :=
  let p := urlparse url
  let host := (hostnameOf p.netloc).getD []
  if host = ("youtu.be").toList then
    match splitSep '/' (stripSlashes p.path) with
    | [] => none
    | h :: _ => if !h.isEmpty then some h else none
  else if !containsSub host ("youtube.com").toList then none
  else if p.path = ("/watch").toList then
    match qsLookup (parse_qs p.query) (("v").toList) with
    | some (v :: _) => some v
    | _ => none
  else
    match altShapes.find? (fun pre => pre.isPrefixOf p.path) with
    | some pre =>
      match splitSep '/' (p.path.drop pre.length) with
      | [] => none
      | h :: _ => some h
    | none => none

/-- Identifier characters of the recognized URL shapes: letters, digits,
dash and underscore. -/
def goodChar (c : Char) : Bool := c.isAlphanum || c = '-' || c = '_'

/-- A well-formed identifier token. -/
def goodId (id : List Char) : Prop := id ≠ [] ∧ id.all goodChar

theorem takeWhile_append_stop {p : Char → Bool} {xs : List Char} (ys : List Char)
    (h : xs.dropWhile p ≠ []) :
    (xs ++ ys).takeWhile p = xs.takeWhile p ∧
      (xs ++ ys).dropWhile p = xs.dropWhile p ++ ys := by
  induction xs with
  | nil => simp at h
  | cons c cs ih =>
    by_cases hc : p c
    · have h2 : cs.dropWhile p ≠ [] := by
        rw [List.dropWhile_cons, if_pos hc] at h
        exact h
      obtain ⟨h3, h4⟩ := ih h2
      constructor
      · rw [List.cons_append, List.takeWhile_cons, if_pos hc, h3,
          List.takeWhile_cons, if_pos hc]
      · rw [List.cons_append, List.dropWhile_cons, if_pos hc, h4,
          List.dropWhile_cons, if_pos hc]
    · constructor
      · rw [List.cons_append, List.takeWhile_cons, if_neg hc,
          List.takeWhile_cons, if_neg hc]
      · rw [List.cons_append, List.dropWhile_cons, if_neg hc,
          List.dropWhile_cons, if_neg hc, List.cons_append]

theorem takeWhile_append_all {p : Char → Bool} {xs : List Char} (ys : List Char)
    (h : ∀ c ∈ xs, p c = true) :
    (xs ++ ys).takeWhile p = xs ++ ys.takeWhile p := by
  induction xs with
  | nil => simp
  | cons c cs ih =>
    rw [List.cons_append, List.takeWhile_cons, if_pos (h c (by simp)),
      ih (fun x hx => h x (by simp [hx])), List.cons_append]

theorem dropWhile_append_all {p : Char → Bool} {xs : List Char} (ys : List Char)
    (h : ∀ c ∈ xs, p c = true) :
    (xs ++ ys).dropWhile p = ys.dropWhile p := by
  induction xs with
  | nil => simp
  | cons c cs ih =>
    rw [List.cons_append, List.dropWhile_cons, if_pos (h c (by simp)),
      ih (fun x hx => h x (by simp [hx]))]

theorem takeWhile_all {p : Char → Bool} {xs : List Char}
    (h : ∀ c ∈ xs, p c = true) : xs.takeWhile p = xs := by
  have := takeWhile_append_all (p := p) [] h
  simpa using this

theorem dropWhile_all {p : Char → Bool} {xs : List Char}
    (h : ∀ c ∈ xs, p c = true) : xs.dropWhile p = [] := by
  have := dropWhile_append_all (p := p) [] h
  simpa using this

theorem dropWhile_none {p : Char → Bool} {xs : List Char}
    (h : ∀ c ∈ xs, p c = false) : xs.dropWhile p = xs := by
  cases xs with
  | nil => rfl
  | cons c cs =>
    rw [List.dropWhile_cons, if_neg (by simp [h c (by simp)])]

theorem splitSep_single {c : Char} {s : List Char}
    (h : ∀ x ∈ s, (x == c) = false) : splitSep c s = [s] := by
  induction s with
  | nil => rfl
  | cons x xs ih =>
    unfold splitSep
    rw [if_neg (by simpa using h x (by simp)), ih (fun y hy => h y (by simp [hy]))]

theorem goodChar_ne {c d : Char} (h : goodChar c = true) (hd : goodChar d = false) :
    c ≠ d := by
  intro he
  rw [he, hd] at h
  cases h

theorem goodChar_nbeq {c d : Char} (h : goodChar c = true) (hd : goodChar d = false) :
    (c == d) = false := by
  simpa using goodChar_ne h hd

theorem goodChar_not_space {c : Char} (h : goodChar c = true) : pySpace c = false := by
  cases hps : pySpace c
  · rfl
  · exfalso
    simp only [pySpace, Bool.or_eq_true, decide_eq_true_eq] at hps
    rcases hps with ((((h1 | h1) | h1) | h1) | h1) | h1 <;>
      (rw [h1] at h; exact absurd h (by decide))

theorem unquotePlus_good {s : List Char} (h : s.all goodChar) :
    ∀ fu, unquotePlusAux fu s = s := by
  induction s with
  | nil => intro fu; cases fu <;> rfl
  | cons c cs ih =>
    intro fu
    cases fu with
    | zero => rfl
    | succ fu =>
      have hc : goodChar c = true := by
        simp [List.all_cons] at h
        exact h.1
      have hcs : cs.all goodChar := by
        simp [List.all_cons] at h
        simpa using h.2
      unfold unquotePlusAux
      rw [if_neg (goodChar_ne hc (by decide)), if_neg (goodChar_ne hc (by decide)),
        ih hcs fu]

theorem takeWhile_lit_good {p : Char → Bool} {xs id : List Char}
    (hxs : ∀ c ∈ xs, p c = true) (hid : ∀ c ∈ id, p c = true) :
    (xs ++ id).takeWhile p = xs ++ id := by
  rw [takeWhile_append_all id hxs, takeWhile_all hid]

theorem dropWhile_lit_good {p : Char → Bool} {xs id : List Char}
    (hxs : ∀ c ∈ xs, p c = true) (hid : ∀ c ∈ id, p c = true) :
    (xs ++ id).dropWhile p = [] := by
  rw [dropWhile_append_all id hxs, dropWhile_all hid]

theorem isEmpty_false_of_ne_nil {l : List Char} (h : l ≠ []) : l.isEmpty = false := by
  cases l with
  | nil => exact absurd rfl h
  | cons c cs => rfl

theorem parse_qs_v (id : List Char) (hne : id ≠ [])
    (hgood : ∀ c ∈ id, goodChar c = true) :
    parse_qs (("v=").toList ++ id) = [(("v").toList, [id])] := by
  unfold parse_qs
  rw [splitSep_single (by
    intro x hx
    rcases List.mem_append.mp hx with h1 | h1
    · fin_cases h1 <;> decide
    · exact goodChar_nbeq (hgood x h1) (by decide))]
  rw [List.foldl_cons, List.foldl_nil]
  rw [if_neg (by simp)]
  have hname : (("v=").toList ++ id).takeWhile (fun c => !(c == eqChar)) = ("v").toList := by
    have := @takeWhile_append_stop (fun c => !(c == eqChar))
      (("v=").toList) id (by decide)
    rw [this.1]
    decide
  have hrest : (("v=").toList ++ id).dropWhile (fun c => !(c == eqChar)) =
      eqChar :: id := by
    have := @takeWhile_append_stop (fun c => !(c == eqChar))
      (("v=").toList) id (by decide)
    rw [this.2]
    rfl
  rw [hname, hrest]
  show (if id.isEmpty = true then [] else
    qsAddVal [] (unquotePlus (("v").toList)) (unquotePlus id)) = [(("v").toList, [id])]
  have hui : unquotePlus id = id := by
    unfold unquotePlus
    exact unquotePlus_good (by simpa [List.all_eq_true] using hgood) _
  rw [if_neg (by simp [isEmpty_false_of_ne_nil hne]), hui]
  rfl

theorem mem_takeWhile_imp {p : Char → Bool} {l : List Char} {c : Char}
    (h : c ∈ l.takeWhile p) : c ∈ l := by
  induction l with
  | nil => simpa using h
  | cons x xs ih =>
    rw [List.takeWhile_cons] at h
    by_cases hx : p x
    · rw [if_pos hx] at h
      rcases List.mem_cons.mp h with h1 | h1
      · simp [h1]
      · simp [ih h1]
    · rw [if_neg hx] at h
      simp at h

theorem stripParams_no_semi {path0 : List Char}
    (h : ∀ c ∈ path0, (c == ';') = false) : stripParams path0 = path0 := by
  unfold stripParams
  have hseg : ((path0.reverse.takeWhile (fun c => !(c == '/'))).reverse).takeWhile
      (fun c => !(c == ';')) = (path0.reverse.takeWhile (fun c => !(c == '/'))).reverse := by
    apply takeWhile_all
    intro c hc
    have h1 : c ∈ path0.reverse.takeWhile (fun c => !(c == '/')) := by
      simpa using hc
    have h2 : c ∈ path0 := by
      have := mem_takeWhile_imp h1
      simpa using this
    simpa using h c h2
  simp only [hseg]
  simp

theorem dropFrag_good {lit id : List Char}
    (hlit : ∀ c ∈ lit, (c == '#') = false)
    (hgood : ∀ c ∈ id, goodChar c = true) :
    dropFrag (lit ++ id) = lit ++ id := by
  unfold dropFrag
  exact takeWhile_lit_good (fun c hc => by simpa using hlit c hc)
    (fun c hc => by simpa using goodChar_nbeq (hgood c hc) (by decide))

theorem splitQuery_noquery {lit id : List Char}
    (hlit : ∀ c ∈ lit, (c == '?') = false)
    (hgood : ∀ c ∈ id, goodChar c = true) :
    splitQuery (lit ++ id) = (lit ++ id, []) := by
  unfold splitQuery
  rw [takeWhile_lit_good (fun c hc => by simpa using hlit c hc)
    (fun c hc => by simpa using goodChar_nbeq (hgood c hc) (by decide))]
  rw [dropWhile_lit_good (fun c hc => by simpa using hlit c hc)
    (fun c hc => by simpa using goodChar_nbeq (hgood c hc) (by decide))]

theorem stripParams_lit_good {lit id : List Char}
    (hlit : ∀ c ∈ lit, (c == ';') = false)
    (hgood : ∀ c ∈ id, goodChar c = true) :
    stripParams (lit ++ id) = lit ++ id := by
  apply stripParams_no_semi
  intro c hc
  rcases List.mem_append.mp hc with h1 | h1
  · exact hlit c h1
  · exact goodChar_nbeq (hgood c h1) (by decide)

theorem urlparse_watch (id : List Char) (hgood : ∀ c ∈ id, goodChar c = true) :
    urlparse (("https://www.youtube.com/watch?v=").toList ++ id) =
      ⟨("https").toList, ("www.youtube.com").toList, ("/watch").toList,
        ("v=").toList ++ id⟩ := by
  have e1 : splitScheme (("https://www.youtube.com/watch?v=").toList ++ id) =
      (("https").toList, ("//www.youtube.com/watch?v=").toList ++ id) := rfl
  have e2 : splitNetloc (("//www.youtube.com/watch?v=").toList ++ id) =
      (("www.youtube.com").toList, ("/watch?v=").toList ++ id) := rfl
  have e3 : dropFrag (("/watch?v=").toList ++ id) = ("/watch?v=").toList ++ id :=
    dropFrag_good (by decide) hgood
  have e4 : splitQuery (("/watch?v=").toList ++ id) =
      (("/watch").toList, ("v=").toList ++ id) := rfl
  have e5 : stripParams (("/watch").toList) = ("/watch").toList := rfl
  simp only [urlparse, e1, e2, e3, e4, e5]

theorem urlparse_ytbe (id : List Char) (hgood : ∀ c ∈ id, goodChar c = true) :
    urlparse (("https://youtu.be/").toList ++ id) =
      ⟨("https").toList, ("youtu.be").toList, ("/").toList ++ id, []⟩ := by
  have e1 : splitScheme (("https://youtu.be/").toList ++ id) =
      (("https").toList, ("//youtu.be/").toList ++ id) := rfl
  have e2 : splitNetloc (("//youtu.be/").toList ++ id) =
      (("youtu.be").toList, ("/").toList ++ id) := rfl
  have e3 : dropFrag (("/").toList ++ id) = ("/").toList ++ id :=
    dropFrag_good (by decide) hgood
  have e4 : splitQuery (("/").toList ++ id) = (("/").toList ++ id, []) :=
    splitQuery_noquery (by decide) hgood
  have e5 : stripParams (("/").toList ++ id) = ("/").toList ++ id :=
    stripParams_lit_good (by decide) hgood
  simp only [urlparse, e1, e2, e3, e4, e5]

theorem urlparse_shorts (id : List Char) (hgood : ∀ c ∈ id, goodChar c = true) :
    urlparse (("https://www.youtube.com/shorts/").toList ++ id) =
      ⟨("https").toList, ("www.youtube.com").toList, ("/shorts/").toList ++ id, []⟩ := by
  have e1 : splitScheme (("https://www.youtube.com/shorts/").toList ++ id) =
      (("https").toList, ("//www.youtube.com/shorts/").toList ++ id) := rfl
  have e2 : splitNetloc (("//www.youtube.com/shorts/").toList ++ id) =
      (("www.youtube.com").toList, ("/shorts/").toList ++ id) := rfl
  have e3 : dropFrag (("/shorts/").toList ++ id) = ("/shorts/").toList ++ id :=
    dropFrag_good (by decide) hgood
  have e4 : splitQuery (("/shorts/").toList ++ id) = (("/shorts/").toList ++ id, []) :=
    splitQuery_noquery (by decide) hgood
  have e5 : stripParams (("/shorts/").toList ++ id) = ("/shorts/").toList ++ id :=
    stripParams_lit_good (by decide) hgood
  simp only [urlparse, e1, e2, e3, e4, e5]

theorem urlparse_live (id : List Char) (hgood : ∀ c ∈ id, goodChar c = true) :
    urlparse (("https://www.youtube.com/live/").toList ++ id) =
      ⟨("https").toList, ("www.youtube.com").toList, ("/live/").toList ++ id, []⟩ := by
  have e1 : splitScheme (("https://www.youtube.com/live/").toList ++ id) =
      (("https").toList, ("//www.youtube.com/live/").toList ++ id) := rfl
  have e2 : splitNetloc (("//www.youtube.com/live/").toList ++ id) =
      (("www.youtube.com").toList, ("/live/").toList ++ id) := rfl
  have e3 : dropFrag (("/live/").toList ++ id) = ("/live/").toList ++ id :=
    dropFrag_good (by decide) hgood
  have e4 : splitQuery (("/live/").toList ++ id) = (("/live/").toList ++ id, []) :=
    splitQuery_noquery (by decide) hgood
  have e5 : stripParams (("/live/").toList ++ id) = ("/live/").toList ++ id :=
    stripParams_lit_good (by decide) hgood
  simp only [urlparse, e1, e2, e3, e4, e5]

theorem urlparse_embed (id : List Char) (hgood : ∀ c ∈ id, goodChar c = true) :
    urlparse (("https://www.youtube.com/embed/").toList ++ id) =
      ⟨("https").toList, ("www.youtube.com").toList, ("/embed/").toList ++ id, []⟩ := by
  have e1 : splitScheme (("https://www.youtube.com/embed/").toList ++ id) =
      (("https").toList, ("//www.youtube.com/embed/").toList ++ id) := rfl
  have e2 : splitNetloc (("//www.youtube.com/embed/").toList ++ id) =
      (("www.youtube.com").toList, ("/embed/").toList ++ id) := rfl
  have e3 : dropFrag (("/embed/").toList ++ id) = ("/embed/").toList ++ id :=
    dropFrag_good (by decide) hgood
  have e4 : splitQuery (("/embed/").toList ++ id) = (("/embed/").toList ++ id, []) :=
    splitQuery_noquery (by decide) hgood
  have e5 : stripParams (("/embed/").toList ++ id) = ("/embed/").toList ++ id :=
    stripParams_lit_good (by decide) hgood
  simp only [urlparse, e1, e2, e3, e4, e5]

theorem urlparse_vslash (id : List Char) (hgood : ∀ c ∈ id, goodChar c = true) :
    urlparse (("https://www.youtube.com/v/").toList ++ id) =
      ⟨("https").toList, ("www.youtube.com").toList, ("/v/").toList ++ id, []⟩ := by
  have e1 : splitScheme (("https://www.youtube.com/v/").toList ++ id) =
      (("https").toList, ("//www.youtube.com/v/").toList ++ id) := rfl
  have e2 : splitNetloc (("//www.youtube.com/v/").toList ++ id) =
      (("www.youtube.com").toList, ("/v/").toList ++ id) := rfl
  have e3 : dropFrag (("/v/").toList ++ id) = ("/v/").toList ++ id :=
    dropFrag_good (by decide) hgood
  have e4 : splitQuery (("/v/").toList ++ id) = (("/v/").toList ++ id, []) :=
    splitQuery_noquery (by decide) hgood
  have e5 : stripParams (("/v/").toList ++ id) = ("/v/").toList ++ id :=
    stripParams_lit_good (by decide) hgood
  simp only [urlparse, e1, e2, e3, e4, e5]

theorem isPrefixOf_nil_left (l : List Char) : ([] : List Char).isPrefixOf l = true := by
  cases l <;> rfl

theorem isPrefixOf_append_self (a id : List Char) : a.isPrefixOf (a ++ id) = true := by
  induction a with
  | nil =>
    rw [List.nil_append]
    exact isPrefixOf_nil_left id
  | cons c cs ih =>
    rw [List.cons_append]
    show (c == c && cs.isPrefixOf (cs ++ id)) = true
    rw [ih]
    simp

theorem evi_watch (id : List Char) (h : goodId id) :
    extract_video_id (("https://www.youtube.com/watch?v=").toList ++ id) = some id := by
  obtain ⟨hne, hall⟩ := h
  have hgood : ∀ c ∈ id, goodChar c = true := by
    simpa [List.all_eq_true] using hall
  unfold extract_video_id
  rw [urlparse_watch id hgood]
  show (match qsLookup (parse_qs (("v=").toList ++ id)) (("v").toList) with
    | some (v :: _) => some v
    | _ => none) = some id
  rw [parse_qs_v id hne hgood]
  rfl

theorem evi_ytbe (id : List Char) (h : goodId id) :
    extract_video_id (("https://youtu.be/").toList ++ id) = some id := by
  obtain ⟨hne, hall⟩ := h
  have hgood : ∀ c ∈ id, goodChar c = true := by
    simpa [List.all_eq_true] using hall
  unfold extract_video_id
  rw [urlparse_ytbe id hgood]
  show (match splitSep '/' (stripSlashes (("/").toList ++ id)) with
    | [] => none
    | h :: _ => if !h.isEmpty then some h else none) = some id
  have hss : stripSlashes (("/").toList ++ id) = id := by
    have hin : id.dropWhile (fun c => c == '/') = id :=
      dropWhile_none (fun c hc => goodChar_nbeq (hgood c hc) (by decide))
    have hout : id.reverse.dropWhile (fun c => c == '/') = id.reverse :=
      dropWhile_none (fun c hc => goodChar_nbeq (hgood c (by simpa using hc)) (by decide))
    unfold stripSlashes
    rw [dropWhile_append_all id (by decide), hin, hout, List.reverse_reverse]
  rw [hss, splitSep_single (fun x hx => goodChar_nbeq (hgood x hx) (by decide))]
  show (if !id.isEmpty then some id else none) = some id
  rw [isEmpty_false_of_ne_nil hne]
  rfl

theorem evi_alt_core {url preLit id : List Char} (hne : id ≠ [])
    (hgood : ∀ c ∈ id, goodChar c = true)
    (hup : urlparse url =
      ⟨("https").toList, ("www.youtube.com").toList, preLit ++ id, []⟩)
    (hnw : ¬(preLit ++ id = ("/watch").toList))
    (hfind : altShapes.find? (fun pre => pre.isPrefixOf (preLit ++ id)) = some preLit) :
    extract_video_id url = some id := by
  unfold extract_video_id
  rw [hup]
  show (if preLit ++ id = ("/watch").toList then
      (match qsLookup (parse_qs []) (("v").toList) with
        | some (v :: _) => some v
        | _ => none)
    else
      (match altShapes.find? (fun pre => pre.isPrefixOf (preLit ++ id)) with
        | some pre =>
          (match splitSep '/' ((preLit ++ id).drop pre.length) with
            | [] => none
            | h :: _ => some h)
        | none => none)) = some id
  rw [if_neg hnw, hfind]
  show (match splitSep '/' ((preLit ++ id).drop preLit.length) with
    | [] => none
    | h :: _ => some h) = some id
  rw [List.drop_left, splitSep_single (fun x hx => goodChar_nbeq (hgood x hx) (by decide))]

theorem take3_ne_watch {lit : List Char} (id : List Char)
    (hne3 : lit.take 3 ≠ ("/wa").toList)
    (hlen : 3 ≤ lit.length) :
    ¬(lit ++ id = ("/watch").toList) := by
  intro he
  apply hne3
  have h3 : (lit ++ id).take 3 = (("/watch").toList).take 3 := by rw [he]
  rw [List.take_append_of_le_length hlen] at h3
  exact h3

/-- C3: the Video Identifier Resolver recognizes all of the host path
shapes, returning the identifier token, and returns not-found for every URL
that is not on a recognized host or matches no known shape. -/
theorem extract_video_id_resolver :
    (∀ id, goodId id →
      extract_video_id (("https://youtu.be/").toList ++ id) = some id) ∧
    (∀ id, goodId id →
      extract_video_id (("https://www.youtube.com/watch?v=").toList ++ id) = some id) ∧
    (∀ id, goodId id →
      extract_video_id (("https://www.youtube.com/shorts/").toList ++ id) = some id) ∧
    (∀ id, goodId id →
      extract_video_id (("https://www.youtube.com/live/").toList ++ id) = some id) ∧
    (∀ id, goodId id →
      extract_video_id (("https://www.youtube.com/embed/").toList ++ id) = some id) ∧
    (∀ id, goodId id →
      extract_video_id (("https://www.youtube.com/v/").toList ++ id) = some id) ∧
    (∀ url, (hostnameOf (urlparse url).netloc).getD [] ≠ ("youtu.be").toList →
      containsSub ((hostnameOf (urlparse url).netloc).getD [])
        (("youtube.com").toList) = false →
      extract_video_id url = none) ∧
    (∀ url, (hostnameOf (urlparse url).netloc).getD [] ≠ ("youtu.be").toList →
      (urlparse url).path ≠ ("/watch").toList →
      altShapes.find? (fun pre => pre.isPrefixOf (urlparse url).path) = none →
      extract_video_id url = none) := by
  refine ⟨evi_ytbe, evi_watch, ?_, ?_, ?_, ?_, ?_, ?_⟩
  · intro id h
    obtain ⟨hne, hall⟩ := h
    have hgood : ∀ c ∈ id, goodChar c = true := by
      simpa [List.all_eq_true] using hall
    exact evi_alt_core hne hgood (urlparse_shorts id hgood)
      (take3_ne_watch id (by decide) (by decide))
      (by
      unfold altShapes
      exact List.find?_cons_of_pos _ (isPrefixOf_append_self _ id))
  · intro id h
    obtain ⟨hne, hall⟩ := h
    have hgood : ∀ c ∈ id, goodChar c = true := by
      simpa [List.all_eq_true] using hall
    exact evi_alt_core hne hgood (urlparse_live id hgood)
      (take3_ne_watch id (by decide) (by decide))
      (by
      unfold altShapes
      rw [List.find?_cons_of_neg _ (fun h2 => Bool.noConfusion h2)]
      exact List.find?_cons_of_pos _ (isPrefixOf_append_self _ id))
  · intro id h
    obtain ⟨hne, hall⟩ := h
    have hgood : ∀ c ∈ id, goodChar c = true := by
      simpa [List.all_eq_true] using hall
    exact evi_alt_core hne hgood (urlparse_embed id hgood)
      (take3_ne_watch id (by decide) (by decide))
      (by
      unfold altShapes
      rw [List.find?_cons_of_neg _ (fun h2 => Bool.noConfusion h2),
        List.find?_cons_of_neg _ (fun h2 => Bool.noConfusion h2)]
      exact List.find?_cons_of_pos _ (isPrefixOf_append_self _ id))
  · intro id h
    obtain ⟨hne, hall⟩ := h
    have hgood : ∀ c ∈ id, goodChar c = true := by
      simpa [List.all_eq_true] using hall
    exact evi_alt_core hne hgood (urlparse_vslash id hgood)
      (take3_ne_watch id (by decide) (by decide))
      (by
      unfold altShapes
      rw [List.find?_cons_of_neg _ (fun h2 => Bool.noConfusion h2),
        List.find?_cons_of_neg _ (fun h2 => Bool.noConfusion h2),
        List.find?_cons_of_neg _ (fun h2 => Bool.noConfusion h2)]
      exact List.find?_cons_of_pos _ (isPrefixOf_append_self _ id))
  · intro url h1 h2
    simp only [extract_video_id]
    rw [if_neg h1, h2, if_pos (by decide)]
  · intro url h1 h2 h3
    simp only [extract_video_id]
    rw [if_neg h1]
    by_cases hc : containsSub ((hostnameOf (urlparse url).netloc).getD [])
      (("youtube.com").toList)
    · rw [hc, if_neg (by decide), if_neg h2, h3]
    · have hcf : containsSub ((hostnameOf (urlparse url).netloc).getD [])
        (("youtube.com").toList) = false := by simpa using hc
      rw [hcf, if_pos (by decide)]

/-- Witness for C3: a concrete short-domain URL resolves to its identifier. -/
theorem extract_video_id_resolver_witness :
    extract_video_id (("https://youtu.be/").toList ++ ("dQw4w9WgXcQ").toList) =
      some (("dQw4w9WgXcQ").toList) :=
  extract_video_id_resolver.1 (("dQw4w9WgXcQ").toList) ⟨by decide, by decide⟩

/-- C10: boundary inputs on the recognized hosts do not raise: a watch URL
without the v parameter and a bare short-domain URL give not-found, and an
alternate-prefix URL with nothing after the prefix gives the empty
identifier token. -/
theorem extract_video_id_boundary :
    extract_video_id (("https://www.youtube.com/watch").toList) = none ∧
    extract_video_id (("https://www.youtube.com/watch?t=1").toList) = none ∧
    extract_video_id (("https://youtu.be/").toList) = none ∧
    extract_video_id (("https://www.youtube.com/shorts/").toList) = some [] := by
  exact ⟨rfl, rfl, rfl, rfl⟩

/-- Python equality of a `json.loads` value with a string literal. -/
def jEqStr (v : JVal) (s : List Char) : Bool :=
  match v with
  | .str t => t == s
  | _ => false

/-- The sort key of `get_caption_tracks` (source lines 188-193): automatic
tracks after manual ones, then non-English languages after English ones; a
non-string languageCode raises `AttributeError` from `.startswith`. -/
def sortKeyM (t : JVal) : PyM (Nat × Nat) := do
  let kind ← jGet t ("kind").toList (.str [])
  let lang ← jGet t ("languageCode").toList (.str [])
  let langS ← (match lang with
    | .str s => pure s
    | _ => throw PyExc.attributeError : PyM (List Char))
  let is_asr : Nat := if jEqStr kind (("asr").toList) then 1 else 0
  let is_en : Nat := if ("en").toList.isPrefixOf langS then 0 else 1
  pure (is_asr, is_en)

/-- Lexicographic order on sort keys, as Python tuple comparison. -/
def keyLe (p q : Nat × Nat) : Prop := p.1 < q.1 ∨ (p.1 = q.1 ∧ p.2 ≤ q.2)

instance : DecidableRel keyLe := fun p q => by
  unfold keyLe
  infer_instance

/-- Track comparison by key only, as Python `sorted` with a key function. -/
def trackRel (a b : (Nat × Nat) × JVal) : Prop := keyLe a.1 b.1

instance : DecidableRel trackRel := fun a b => by
  unfold trackRel
  infer_instance

instance : IsTotal ((Nat × Nat) × JVal) trackRel :=
  ⟨by
    intro a b
    unfold trackRel keyLe
    omega⟩

instance : IsTrans ((Nat × Nat) × JVal) trackRel :=
  ⟨by
    intro a b c hab hbc
    unfold trackRel keyLe at hab hbc ⊢
    omega⟩

/-- Navigation to the caption track list (source lines 183-185): absent
keys at any level collapse to an empty list. -/
def captionTracksOf (player_response : JVal) : PyM (List JVal) := do
  let captions ← jGet player_response ("captions").toList (.obj [])
  let renderer ← jGet captions ("playerCaptionsTracklistRenderer").toList (.obj [])
  let tracks ← jGet renderer ("captionTracks").toList (.arr [])
  pyIter tracks

/-- The tracks paired with their sort keys, computed in input order as
Python `sorted(seq, key=f)` does before comparing. -/
def keyedTracksOf (player_response : JVal) : PyM (List ((Nat × Nat) × JVal)) := do
  let trackList ← captionTracksOf player_response
  trackList.mapM (fun t => do
    let k ← sortKeyM t
    pure (k, t))

/-- Embedding of `get_caption_tracks` (source lines 181-195): a stable sort
by the key; Python Timsort and insertion sort agree on every stable sort. -/
def get_caption_tracks (player_response : JVal) : PyM (List JVal) := do
  let keyed ← keyedTracksOf player_response
  pure ((List.insertionSort trackRel keyed).map Prod.snd)

theorem keyLe_refl (p : Nat × Nat) : keyLe p p := Or.inr ⟨rfl, le_refl _⟩

theorem key_ne_of_not_trackRel {a b : (Nat × Nat) × JVal} (h : ¬trackRel a b) :
    a.1 ≠ b.1 := by
  intro he
  exact h (Or.inr ⟨congrArg Prod.fst he, by rw [he]⟩)

theorem filter_orderedInsert (a : (Nat × Nat) × JVal)
    (l : List ((Nat × Nat) × JVal)) (k : Nat × Nat) :
    (List.orderedInsert trackRel a l).filter (fun p => decide (p.1 = k)) =
      if a.1 = k then a :: l.filter (fun p => decide (p.1 = k))
      else l.filter (fun p => decide (p.1 = k)) := by
  induction l with
  | nil =>
    by_cases hk : a.1 = k
    · simp [List.orderedInsert, List.filter, hk]
    · simp [List.orderedInsert, List.filter, hk]
  | cons b bs ih =>
    by_cases hr : trackRel a b
    · rw [List.orderedInsert, if_pos hr]
      by_cases hk : a.1 = k
      · simp [List.filter, hk]
      · simp [List.filter, hk]
    · rw [List.orderedInsert, if_neg hr]
      have hne : a.1 ≠ b.1 := key_ne_of_not_trackRel hr
      by_cases hk : a.1 = k
      · have hbk : ¬(b.1 = k) := fun hb => hne (hk.trans hb.symm)
        simp only [List.filter, hbk, decide_eq_true_eq, decide_eq_false hbk, ih,
          if_pos hk]
        simp [hbk]
      · simp only [List.filter, ih, if_neg hk]

theorem filter_insertionSort (l : List ((Nat × Nat) × JVal)) (k : Nat × Nat) :
    (List.insertionSort trackRel l).filter (fun p => decide (p.1 = k)) =
      l.filter (fun p => decide (p.1 = k)) := by
  induction l with
  | nil => rfl
  | cons a as ih =>
    rw [List.insertionSort, filter_orderedInsert, ih]
    by_cases hk : a.1 = k
    · simp [List.filter, hk]
    · simp [List.filter, hk]

/-- The automatic French track of the ranking example. -/
def frTrack : JVal :=
  .obj [(("kind").toList, .str ("asr").toList),
        (("languageCode").toList, .str ("fr").toList)]

/-- The manual German track of the ranking example. -/
def deTrack : JVal := .obj [(("languageCode").toList, .str ("de").toList)]

/-- The manual English track of the ranking example. -/
def enTrack : JVal := .obj [(("languageCode").toList, .str ("en").toList)]

/-- A player response carrying the three example tracks in the order
automatic-French, manual-German, manual-English. -/
def exPlayerResponse : JVal :=
  .obj [(("captions").toList,
    .obj [(("playerCaptionsTracklistRenderer").toList,
      .obj [(("captionTracks").toList, .arr [frTrack, deTrack, enTrack])])])]

/-- C6: the caption track ranking is a stable sort placing non-manual
tracks last, then non-English tracks last: the output is the key-sorted
permutation of the keyed input in which equally-keyed tracks keep their
input order, and on the example catalog the English manual track comes
first, the German manual track second, the French automatic track last. -/
theorem caption_track_ranking :
    (∀ pr out, get_caption_tracks pr = .ok out →
      ∃ keyed, keyedTracksOf pr = .ok keyed ∧
        out = (List.insertionSort trackRel keyed).map Prod.snd ∧
        List.Pairwise trackRel (List.insertionSort trackRel keyed) ∧
        ∀ k, (List.insertionSort trackRel keyed).filter (fun p => decide (p.1 = k)) =
          keyed.filter (fun p => decide (p.1 = k))) ∧
    get_caption_tracks exPlayerResponse = .ok [enTrack, deTrack, frTrack] := by
  constructor
  · intro pr out h
    unfold get_caption_tracks at h
    obtain ⟨keyed, hk, h⟩ := PyM_bind_ok h
    simp [pure, Except.pure] at h
    exact ⟨keyed, hk, h.symm, List.sorted_insertionSort trackRel keyed,
      fun k => filter_insertionSort keyed k⟩
  · rfl

/-- Witness for C6: the general ranking invariant applied to the example
catalog. -/
theorem caption_track_ranking_witness :
    ∃ keyed, keyedTracksOf exPlayerResponse = .ok keyed ∧
      [enTrack, deTrack, frTrack] =
        (List.insertionSort trackRel keyed).map Prod.snd ∧
      List.Pairwise trackRel (List.insertionSort trackRel keyed) ∧
      ∀ k, (List.insertionSort trackRel keyed).filter (fun p => decide (p.1 = k)) =
        keyed.filter (fun p => decide (p.1 = k)) :=
  caption_track_ranking.1 exPlayerResponse [enTrack, deTrack, frTrack]
    caption_track_ranking.2

/-- Python truthiness of a `list[dict] | None` strategy result: only a
non-empty segment list passes an `if segments:` test. -/
def truthySeg (r : Option (List Segment)) : Bool :=
  match r with
  | some (_ :: _) => true
  | _ => false

/-- The terminal state of the retrieval chain in `main`. -/
inductive ChainOutcome where
  | succeeded (source : List Char) (segments : List Segment)
  | failed
deriving DecidableEq, Repr

/-- Embedding of the strategy chain of `main` (source lines 460-491):
each `rᵢ` is a thunked strategy; the returned list records which
strategies were invoked, in order, and the outcome carries the `source`
tag `main` would report. -/
def mainChain (r1 r2 r3 : Unit → Option (List Segment)) :
    List Nat × ChainOutcome :=
  let s1 := r1 ()
  if truthySeg s1 then ([1], .succeeded ("youtubei").toList (s1.getD []))
  else
    let s2 := r2 ()
    if truthySeg s2 then ([1, 2], .succeeded ("captionTracks").toList (s2.getD []))
    else
      let s3 := r3 ()
      if truthySeg s3 then
        ([1, 2, 3], .succeeded ("android_player").toList (s3.getD []))
      else ([1, 2, 3], .failed)

/-- A one-segment result used to instantiate the chain theorem. -/
def okSeg : Segment := { text := ("ok").toList }

/-- C5: the chain tries strategies in fixed order and short-circuits on
the first truthy result: strategy 2 runs only if strategy 1 was untruthy,
strategy 3 only if both earlier ones were; a truthy strategy 1 ends the
chain at once with source youtubei, and the terminal failed state is
reached exactly when all three strategies yield no non-empty sequence. -/
theorem strategy_chain_short_circuit (r1 r2 r3 : Unit → Option (List Segment)) :
    (truthySeg (r1 ()) = true →
      (mainChain r1 r2 r3).1 = [1] ∧
      (mainChain r1 r2 r3).2 =
        .succeeded ("youtubei").toList ((r1 ()).getD [])) ∧
    (2 ∈ (mainChain r1 r2 r3).1 → truthySeg (r1 ()) = false) ∧
    (3 ∈ (mainChain r1 r2 r3).1 →
      truthySeg (r1 ()) = false ∧ truthySeg (r2 ()) = false) ∧
    (truthySeg (r1 ()) = false → truthySeg (r2 ()) = true →
      (mainChain r1 r2 r3).1 = [1, 2] ∧
      (mainChain r1 r2 r3).2 =
        .succeeded ("captionTracks").toList ((r2 ()).getD [])) ∧
    (truthySeg (r1 ()) = false → truthySeg (r2 ()) = false →
      truthySeg (r3 ()) = true →
      (mainChain r1 r2 r3).1 = [1, 2, 3] ∧
      (mainChain r1 r2 r3).2 =
        .succeeded ("android_player").toList ((r3 ()).getD [])) ∧
    ((mainChain r1 r2 r3).2 = .failed ↔
      truthySeg (r1 ()) = false ∧ truthySeg (r2 ()) = false ∧
        truthySeg (r3 ()) = false) := by
  by_cases h1 : truthySeg (r1 ()) = true
  · simp [mainChain, h1]
  · rw [Bool.not_eq_true] at h1
    by_cases h2 : truthySeg (r2 ()) = true
    · simp [mainChain, h1, h2]
    · rw [Bool.not_eq_true] at h2
      by_cases h3 : truthySeg (r3 ()) = true
      · simp [mainChain, h1, h2, h3]
      · rw [Bool.not_eq_true] at h3
        simp [mainChain, h1, h2, h3]

/-- Witness for C5: a truthy first strategy ends the chain with only
strategy 1 invoked and source youtubei. -/
theorem strategy_chain_short_circuit_witness :
    (mainChain (fun _ => some [okSeg]) (fun _ => none) (fun _ => none)).1 = [1] ∧
    (mainChain (fun _ => some [okSeg]) (fun _ => none) (fun _ => none)).2 =
      .succeeded ("youtubei").toList [okSeg] :=
  (strategy_chain_short_circuit
    (fun _ => some [okSeg]) (fun _ => none) (fun _ => none)).1 rfl

/-- UTF-8 bytes of a character, for percent-encoding. -/
def utf8Bytes (c : Char) : List Nat :=
  let n := c.toNat
  if n < 128 then [n]
  else if n < 2048 then [192 + n / 64, 128 + n % 64]
  else if n < 65536 then [224 + n / 4096, 128 + (n / 64) % 64, 128 + n % 64]
  else [240 + n / 262144, 128 + (n / 4096) % 64, 128 + (n / 64) % 64,
    128 + n % 64]

/-- Uppercase hexadecimal digit, as `urllib.parse.quote` emits. -/
def hexUpDigit (n : Nat) : Char :=
  if n < 10 then Char.ofNat (48 + n) else Char.ofNat (55 + n)

/-- A percent-encoded byte. -/
def pctByte (b : Nat) : List Char := ['%', hexUpDigit (b / 16), hexUpDigit (b % 16)]

/-- Model of `urllib.parse.quote_plus`: space becomes plus, the always-safe
characters pass through, everything else is percent-encoded bytewise. -/
def quote_plus (s : List Char) : List Char :=
  s.foldr
    (fun c acc =>
      if c = ' ' then '+' :: acc
      else if c.isAlphanum || c = '_' || c = '.' || c = '-' || c = '~' then
        c :: acc
      else (utf8Bytes c).foldr (fun b acc2 => pctByte b ++ acc2) acc) []

/-- Model of `urllib.parse.urlencode(params, doseq=True)`: each value of
each key becomes a quoted `key=value` pair, joined with ampersands in dict
order. -/
def urlencode (params : List (List Char × List (List Char))) : List Char :=
  List.intercalate ['&']
    ((params.map (fun kv =>
      kv.2.map (fun v => quote_plus kv.1 ++ [eqChar] ++ quote_plus v))).join)

/-- Python dict assignment `params[k] = v`: overwrite in place if the key
exists, else append at the end. -/
def assocSet (m : List (List Char × List (List Char))) (k : List Char)
    (v : List (List Char)) : List (List Char × List (List Char)) :=
  if m.any (fun p => p.1 == k) then
    m.map (fun p => if p.1 == k then (p.1, v) else p)
  else m ++ [(k, v)]

/-- The query dict of the JSON3 attempt (source lines 276-278): the parsed
query with `fmt` and `alt` overridden. -/
def ytParams (q : List Char) : List (List Char × List (List Char)) :=
  assocSet (assocSet (parse_qs q) (("fmt").toList) [("json3").toList])
    (("alt").toList) [("json").toList]

/-- The URL of the JSON3 attempt (source line 279): scheme, netloc and path
of the base URL with the overridden query re-encoded. -/
def json3UrlOf (base_url : List Char) : List Char :=
  let p := urlparse base_url
  p.scheme ++ ("://").toList ++ p.netloc ++ p.path ++ ['?'] ++
    urlencode (ytParams p.query)

/-- Model of `re.sub(r"&fmt=[^&]+", "", base_url)` (source line 288): every
ampersand-fmt run up to the next ampersand is deleted. -/
def stripFmtAux : Nat → List Char → List Char
  | 0, s => s
  | _, [] => []
  | fu + 1, c :: rest =>
    if (c == '&') && ("fmt=").toList.isPrefixOf rest then
      let tail := rest.drop 4
      let run := tail.takeWhile (fun x => !(x == '&'))
      if run.isEmpty then c :: stripFmtAux fu rest
      else stripFmtAux fu (tail.dropWhile (fun x => !(x == '&')))
    else c :: stripFmtAux fu rest

def stripFmt (s : List Char) : List Char := stripFmtAux (s.length + 1) s

/-- The first try block of `download_caption_track` (source lines 273-281):
fetch the fmt-overridden URL and parse it as JSON3. -/
def json3Stage (fetch : List Char → PyM (List Char)) (base_url : List Char) :
    PyM (Option (List Segment)) := do
  let text ← fetch (json3UrlOf base_url)
  parse_json3_transcript text

/-- The fallback try block of `download_caption_track` (source lines
286-295): fetch the fmt-stripped URL, retry JSON3 on it, then parse as
XML; any exception yields `None`. -/
def xmlStage (fetch : List Char → PyM (List Char)) (base_url : List Char) :
    Option (List Segment) :=
  match (do
      let text ← fetch (stripFmt base_url)
      let result ← parse_json3_transcript text
      match result with
      | some (s :: ss) => pure (some (s :: ss))
      | _ => parse_xml_transcript text : PyM (Option (List Segment))) with
  | .ok r => r
  | .error _ => none

/-- Embedding of `download_caption_track` (source lines 270-295), with the
network as an oracle: the JSON3 attempt short-circuits on a truthy result,
anything else (no segments or any exception) falls to the XML stage. -/
def download_caption_track (fetch : List Char → PyM (List Char))
    (base_url : List Char) : Option (List Segment) :=
  match json3Stage fetch base_url with
  | .ok (some (s :: ss)) => some (s :: ss)
  | _ => xmlStage fetch base_url


theorem qsLookup_map_upd (k : List Char) (v : List (List Char)) :
    ∀ m : List (List Char × List (List Char)),
    m.any (fun p => p.1 == k) = true →
    qsLookup (m.map (fun p => if p.1 == k then (p.1, v) else p)) k = some v := by
  intro m
  induction m with
  | nil => intro h; simp at h
  | cons p rest ih =>
    intro h
    by_cases hp : (p.1 == k) = true
    · rw [List.map_cons, if_pos hp]
      simp [qsLookup, List.find?, hp]
    · have hpf : (p.1 == k) = false := by simpa using hp
      have h2 : rest.any (fun p => p.1 == k) = true := by
        rw [List.any_cons] at h
        rcases Bool.or_eq_true_iff.mp h with h1 | h1
        · exact absurd h1 hp
        · exact h1
      rw [List.map_cons, if_neg hp]
      simp only [qsLookup, List.find?, hpf]
      exact ih h2

theorem qsLookup_map_upd_ne (k k2 : List Char) (v : List (List Char))
    (hne : k2 ≠ k) :
    ∀ m : List (List Char × List (List Char)),
    qsLookup (m.map (fun p => if p.1 == k then (p.1, v) else p)) k2 =
      qsLookup m k2 := by
  intro m
  induction m with
  | nil => rfl
  | cons p rest ih =>
    by_cases hp : (p.1 == k) = true
    · have hk : p.1 = k := by simpa using hp
      have hp2 : (p.1 == k2) = false := by
        cases hq : (p.1 == k2)
        · rfl
        · exact absurd (((by simpa using hq : p.1 = k2).symm.trans hk)) hne
      rw [List.map_cons, if_pos hp]
      simp only [qsLookup, List.find?, hp2]
      exact ih
    · by_cases hp2 : (p.1 == k2) = true
      · rw [List.map_cons, if_neg hp]
        simp only [qsLookup, List.find?, hp2]
      · have hpf2 : (p.1 == k2) = false := by simpa using hp2
        rw [List.map_cons, if_neg hp]
        simp only [qsLookup, List.find?, hpf2]
        exact ih

theorem qsLookup_append_single_self (k : List Char) (v : List (List Char)) :
    ∀ m : List (List Char × List (List Char)),
    m.any (fun p => p.1 == k) = false →
    qsLookup (m ++ [(k, v)]) k = some v := by
  intro m
  induction m with
  | nil =>
    intro h
    simp only [List.nil_append, qsLookup, List.find?, beq_self_eq_true]
    rfl
  | cons p rest ih =>
    intro h
    rw [List.any_cons] at h
    have hpf : (p.1 == k) = false := by
      cases hq : (p.1 == k)
      · rfl
      · rw [hq] at h; simp at h
    have h2 : rest.any (fun p => p.1 == k) = false := by
      cases hq : rest.any (fun p => p.1 == k)
      · rfl
      · rw [hq] at h; simp at h
    rw [List.cons_append]
    simp only [qsLookup, List.find?, hpf]
    exact ih h2

theorem qsLookup_append_single_ne (k k2 : List Char) (v : List (List Char))
    (hne : k2 ≠ k) :
    ∀ m : List (List Char × List (List Char)),
    qsLookup (m ++ [(k, v)]) k2 = qsLookup m k2 := by
  intro m
  induction m with
  | nil =>
    have hkf : (k == k2) = false := by
      cases hq : (k == k2)
      · rfl
      · exact absurd (by simpa using hq : k = k2).symm hne
    simp only [List.nil_append, qsLookup, List.find?, hkf]
  | cons p rest ih =>
    by_cases hp2 : (p.1 == k2) = true
    · rw [List.cons_append]
      simp only [qsLookup, List.find?, hp2]
    · have hpf2 : (p.1 == k2) = false := by simpa using hp2
      rw [List.cons_append]
      simp only [qsLookup, List.find?, hpf2]
      exact ih

theorem qsLookup_assocSet_self (k : List Char) (v : List (List Char))
    (m : List (List Char × List (List Char))) :
    qsLookup (assocSet m k v) k = some v := by
  unfold assocSet
  by_cases h : m.any (fun p => p.1 == k) = true
  · rw [if_pos h]
    exact qsLookup_map_upd k v m h
  · rw [if_neg h]
    have hf : m.any (fun p => p.1 == k) = false := by
      cases hq : m.any (fun p => p.1 == k)
      · rfl
      · exact absurd hq h
    exact qsLookup_append_single_self k v m hf

theorem qsLookup_assocSet_ne (k k2 : List Char) (v : List (List Char))
    (hne : k2 ≠ k) (m : List (List Char × List (List Char))) :
    qsLookup (assocSet m k v) k2 = qsLookup m k2 := by
  unfold assocSet
  by_cases h : m.any (fun p => p.1 == k) = true
  · rw [if_pos h]
    exact qsLookup_map_upd_ne k k2 v hne m
  · rw [if_neg h]
    exact qsLookup_append_single_ne k k2 v hne m

theorem stripFmtAux_id : ∀ fu : Nat, ∀ s : List Char,
    (∀ i, i < s.length → ("&fmt=").toList.isPrefixOf (s.drop i) = false) →
    stripFmtAux fu s = s := by
  intro fu
  induction fu with
  | zero => intro s h; cases s <;> rfl
  | succ fu ih =>
    intro s h
    cases s with
    | nil => rfl
    | cons c rest =>
      have h0 := h 0 (by simp)
      have e : ("&fmt=").toList = '&' :: ("fmt=").toList := by decide
      rw [e, List.drop_zero] at h0
      have hcond : ((c == '&') && ("fmt=").toList.isPrefixOf rest) = false := by
        cases hc : (c == '&')
        · simp [hc]
        · have hceq : c = '&' := by simpa using hc
          subst hceq
          simp only [List.isPrefixOf] at h0
          simpa using h0
      rw [stripFmtAux, hcond]
      simp only [Bool.false_eq_true, if_false]
      refine congrArg (List.cons c) (ih rest ?_)
      intro i hi
      have hh := h (i + 1) (by simpa using Nat.succ_lt_succ hi)
      simpa using hh

/-- A caption base URL already carrying an fmt parameter. -/
def ceBase : List Char := ("https://h/t?a=b&fmt=srv3").toList

/-- A network oracle serving distinguishable XML on the fmt-stripped URL
and on the unmodified base URL, and a non-transcript body elsewhere. -/
def fetchCE (u : List Char) : PyM (List Char) :=
  if u = ("https://h/t?a=b").toList then pure ("<text>STRIP</text>").toList
  else if u = ceBase then pure ("<text>BASE</text>").toList
  else pure []

/-- The segment served only under the fmt-stripped URL. -/
def stripSeg : Segment := { text := ("STRIP").toList }

/-- C4, counterexample: when the JSON3 attempt yields nothing, the XML
fallback fetches the base URL with its ampersand-fmt parameter deleted by
`re.sub`, not the unmodified base URL: with a host serving different
bodies on the two URLs, the result comes from the stripped one. -/
theorem download_caption_track_counterexample :
    stripFmt ceBase ≠ ceBase ∧
    stripFmt ceBase = ("https://h/t?a=b").toList ∧
    fetchCE ceBase = .ok (("<text>BASE</text>").toList) ∧
    fetchCE (stripFmt ceBase) = .ok (("<text>STRIP</text>").toList) ∧
    download_caption_track fetchCE ceBase = some [stripSeg] :=
  ⟨by decide, by decide, rfl, rfl, by decide⟩

/-- C4 (amended): the JSON3 format is attempted first, on the base URL
re-encoded with `fmt` overridden to json3 and `alt` to json; a truthy
JSON3 result is returned at once; anything else falls to the XML stage,
which fetches the fmt-stripped URL — this equals the unmodified base URL
only when no ampersand-fmt run occurs in it; no URL other than these two
is ever consulted. -/
theorem download_caption_track_amended :
    (∀ q, qsLookup (ytParams q) (("fmt").toList) = some [("json3").toList] ∧
      qsLookup (ytParams q) (("alt").toList) = some [("json").toList]) ∧
    (∀ fetch base s ss, json3Stage fetch base = .ok (some (s :: ss)) →
      download_caption_track fetch base = some (s :: ss)) ∧
    (∀ fetch base, (∀ s ss, json3Stage fetch base ≠ .ok (some (s :: ss))) →
      download_caption_track fetch base = xmlStage fetch base) ∧
    (∀ f g base, f (json3UrlOf base) = g (json3UrlOf base) →
      f (stripFmt base) = g (stripFmt base) →
      download_caption_track f base = download_caption_track g base) ∧
    (∀ base, (∀ i, i < base.length →
      ("&fmt=").toList.isPrefixOf (base.drop i) = false) →
      stripFmt base = base) := by
  refine ⟨?_, ?_, ?_, ?_, ?_⟩
  · intro q
    constructor
    · rw [ytParams,
        qsLookup_assocSet_ne (("alt").toList) (("fmt").toList) _ (by decide)]
      exact qsLookup_assocSet_self _ _ _
    · exact qsLookup_assocSet_self _ _ _
  · intro fetch base s ss h
    unfold download_caption_track
    rw [h]
  · intro fetch base h
    unfold download_caption_track
    cases e : json3Stage fetch base with
    | error ex => rfl
    | ok r =>
      cases r with
      | none => rfl
      | some l =>
        cases l with
        | nil => rfl
        | cons s ss => exact absurd e (h s ss)
  · intro f g base h1 h2
    have e1 : json3Stage f base = json3Stage g base := by
      unfold json3Stage
      rw [h1]
    have e2 : xmlStage f base = xmlStage g base := by
      unfold xmlStage
      rw [h2]
    unfold download_caption_track
    rw [e1, e2]
  · intro base h
    exact stripFmtAux_id (base.length + 1) base h

/-- Witness for C4: a URL with no ampersand-fmt run passes through the
fallback rewrite unchanged. -/
theorem download_caption_track_amended_witness :
    stripFmt (("https://h/t?a=b").toList) = ("https://h/t?a=b").toList :=
  download_caption_track_amended.2.2.2.2 (("https://h/t?a=b").toList)
    (by decide)

end Yt
